import Mathlib

/-!
Verification of the PHP-serialization decoder core of this repository
(`php_to_json.py`; `php_to_json_v2.py` contains a byte-identical copy of the
same parsing core, differing only in comments and UI code).

The embedding works on raw bytes represented as `List Nat` and models the
Python byte-string primitives the source uses (slicing with negative indices,
`bytes.find`, single-index access, `int()` / `float()` literal parsing,
UTF-8 decoding with a latin-1 fallback) explicitly, so that the Lean
definitions compute exactly what the Python source computes, including on
adversarial inputs such as negative declared string lengths.
-/

/- ===================== Python byte-string primitives ===================== -/

/-- Python slice-bound adjustment: a negative index counts from the end
(clamped at 0), a nonnegative index is clamped at the length. -/
def pyAdj (len : Nat) (i : Int) : Nat :=
  if i < 0 then ((len : Int) + i).toNat else min i.toNat len

/-- Python byte-string slicing `b[s:e]` (step 1). -/
def pySlice (b : List Nat) (s e : Int) : List Nat :=
  let s' := pyAdj b.length s
  let e' := pyAdj b.length e
  (b.drop s').take (e' - s')

/-- Python `b.find(bytes([c]), s, e)`: smallest index `j` with
`s' <= j < e'` and `b[j] = c`, after Python bound adjustment. -/
def pyFindByte (b : List Nat) (c : Nat) (s e : Int) : Option Nat :=
  let s' := pyAdj b.length s
  let e' := pyAdj b.length e
  (List.range' s' (e' - s')).find? (fun j => b.getD j 0 == c)

/-- Python single-index access `b[i]` with negative indices counting from the
end. Out-of-range access (which would raise `IndexError` in Python) returns 0;
every use below is guarded so that this case is unreachable. -/
def pyByte (b : List Nat) (i : Int) : Nat :=
  if i < 0 then b.getD ((b.length : Int) + i).toNat 0 else b.getD i.toNat 0

/-- The whitespace set `b' \t\r\n'` used by the string terminator scans. -/
def isScanWS (c : Nat) : Bool := c == 32 || c == 9 || c == 13 || c == 10

/-- Python `bytes` whitespace (used by `bytes.strip`, `int()`, `float()`). -/
def isPyStripWS (c : Nat) : Bool :=
  c == 32 || c == 9 || c == 10 || c == 13 || c == 11 || c == 12

/-- Strip Python-whitespace bytes from both ends (`bytes.strip()`). -/
def stripPyWS (s : List Nat) : List Nat :=
  ((s.dropWhile isPyStripWS).reverse.dropWhile isPyStripWS).reverse

/-- One step bound for the `while i < len(b) and b[i] in b' \t\r\n': i += 1`
loop; `gas` dominates the number of iterations (the wrapper supplies enough). -/
def ws_skip_gas (b : List Nat) : Nat → Int → Int
  | 0, i => i
  | g + 1, i =>
    if i < (b.length : Int) ∧ isScanWS (pyByte b i) = true then
      ws_skip_gas b g (i + 1)
    else i

/-- The whitespace-skipping loop of `_parse_string` / `_lenient_scan_close`:
advance `i` while `i < len(b)` and `b[i]` is in `b' \t\r\n'`.  Entry offsets
are always `> -len b`, for which `2*len b + 1` gas suffices. -/
def ws_skip (b : List Nat) (i : Int) : Int :=
  ws_skip_gas b (2 * b.length + 1) i

/- ========================= Python int()/float() ========================= -/

def isDigitByte (c : Nat) : Bool := 48 ≤ c && c ≤ 57

/-- Digit-run accumulation for `int()`: digits, with single underscores
allowed only between digits (PEP 515). -/
def pyDigitsGo (acc : Nat) : List Nat → Option Nat
  | [] => some acc
  | c :: rest =>
    if isDigitByte c then pyDigitsGo (acc * 10 + (c - 48)) rest
    else if c == 95 then
      match rest with
      | d :: rest' =>
        if isDigitByte d then pyDigitsGo (acc * 10 + (d - 48)) rest' else none
      | [] => none
    else none

/-- A nonempty digit run (underscores between digits), consuming the whole
list, as accepted inside Python `int()`. -/
def pyDigits : List Nat → Option Nat
  | [] => none
  | c :: rest => if isDigitByte c then pyDigitsGo (c - 48) rest else none

/-- Python `int(bytes)` in base 10: strip whitespace, optional sign, digit
run with underscores between digits; anything else raises `ValueError`,
modelled as `none`. -/
def pyIntParse (s : List Nat) : Option Int :=
  let t := stripPyWS s
  if t = [] then none
  else if t.headD 0 = 43 then (pyDigits t.tail).map Int.ofNat
  else if t.headD 0 = 45 then (pyDigits t.tail).map (fun n => -(Int.ofNat n))
  else (pyDigits t).map Int.ofNat

def toLowerByte (c : Nat) : Nat := if 65 ≤ c ∧ c ≤ 90 then c + 32 else c

/-- Consume `[0-9]` and `_digit` pairs greedily (float literal digit runs). -/
def digitRunGo : List Nat → List Nat
  | [] => []
  | c :: rest =>
    if isDigitByte c then digitRunGo rest
    else if c == 95 then
      match rest with
      | d :: rest' => if isDigitByte d then digitRunGo rest' else c :: rest
      | [] => c :: rest
    else c :: rest

/-- A nonempty digit run consuming the whole list. -/
def expDigits : List Nat → Bool
  | [] => false
  | c :: r => isDigitByte c && digitRunGo r == ([] : List Nat)

/-- Exponent part after `e`/`E`: optional sign then digits. -/
def expTail : List Nat → Bool
  | 43 :: rest => expDigits rest
  | 45 :: rest => expDigits rest
  | rest => expDigits rest

/-- Optional exponent, then end of input. -/
def mantExp : List Nat → Bool
  | [] => true
  | c :: rest => toLowerByte c == 101 && expTail rest

/-- Decimal float literal body: `D [. D?] | . D`, optional exponent. -/
def pyFloatDec : List Nat → Bool
  | [] => false
  | 46 :: rest =>
    (match rest with
     | c :: r => isDigitByte c && mantExp (digitRunGo r)
     | [] => false)
  | c :: rest =>
    if isDigitByte c then
      match digitRunGo rest with
      | 46 :: r2 =>
        (match r2 with
         | d :: r3 =>
           if isDigitByte d then mantExp (digitRunGo r3) else mantExp (d :: r3)
         | [] => true)
      | r => mantExp r
    else false

/-- Named float literals accepted by Python `float()`. -/
def pyFloatNamed (t : List Nat) : Bool :=
  let l := t.map toLowerByte
  l == [105, 110, 102] || l == [105, 110, 102, 105, 110, 105, 116, 121] ||
    l == [110, 97, 110]

/-- Python `float(bytes)` acceptance: strip whitespace, optional sign, then a
named or decimal float literal. -/
def pyFloatOk (s : List Nat) : Bool :=
  match stripPyWS s with
  | 43 :: rest => pyFloatNamed rest || pyFloatDec rest
  | 45 :: rest => pyFloatNamed rest || pyFloatDec rest
  | rest => pyFloatNamed rest || pyFloatDec rest

/- =========================== bytes -> text =========================== -/

def utf8Cont (c : Nat) : Bool := 128 ≤ c && c ≤ 191

/-- Strict UTF-8 decoding to a list of code points (rejecting overlong forms,
surrogates and values above U+10FFFF), as Python `bytes.decode('utf-8')`. -/
def utf8Decode? : List Nat → Option (List Nat)
  | [] => some []
  | c :: rest =>
    if c ≤ 127 then (utf8Decode? rest).map (c :: ·)
    else if 194 ≤ c ∧ c ≤ 223 then
      match rest with
      | c2 :: r =>
        if utf8Cont c2 = true then
          (utf8Decode? r).map (((c - 192) * 64 + (c2 - 128)) :: ·)
        else none
      | [] => none
    else if 224 ≤ c ∧ c ≤ 239 then
      match rest with
      | c2 :: c3 :: r =>
        if utf8Cont c2 = true ∧ utf8Cont c3 = true ∧ (c = 224 → 160 ≤ c2) ∧
            (c = 237 → c2 ≤ 159) then
          (utf8Decode? r).map
            (((c - 224) * 4096 + (c2 - 128) * 64 + (c3 - 128)) :: ·)
        else none
      | _ => none
    else if 240 ≤ c ∧ c ≤ 244 then
      match rest with
      | c2 :: c3 :: c4 :: r =>
        if utf8Cont c2 = true ∧ utf8Cont c3 = true ∧ utf8Cont c4 = true ∧
            (c = 240 → 144 ≤ c2) ∧ (c = 244 → c2 ≤ 143) then
          (utf8Decode? r).map
            (((c - 240) * 262144 + (c2 - 128) * 4096 + (c3 - 128) * 64 +
              (c4 - 128)) :: ·)
        else none
      | _ => none
    else none

/-- `_decode_bytes`: UTF-8 with a latin-1 fallback (latin-1 maps each byte to
the equal code point). -/
def decode_bytes (sbytes : List Nat) : List Nat :=
  match utf8Decode? sbytes with
  | some s => s
  | none => sbytes

/- ============================ Parser core ============================ -/

/-- Error site of each `raise ParseError(...)` in the parsing core, in source
order: "Unexpected end: delimiter not found", "Invalid integer", "Invalid
float", "Invalid boolean token", "Invalid string length", "Expected opening
quote for string", "String length mismatch vs s:<len> (too short)", "String
length mismatch and no viable closing found", "Expected closing quote-semicolon
for string", "Unsupported key type", "Invalid array count", "Expected open
brace after array length", "Expected close brace to close array",
"Unsupported value type". -/
inductive ErrKind where
  | delimNotFound
  | invalidInteger
  | invalidFloat
  | invalidBool
  | invalidStringLength
  | expectedOpeningQuote
  | stringTooShort
  | noViableClosing
  | expectedClosing
  | unsupportedKeyType
  | invalidArrayCount
  | expectedBraceOpen
  | expectedBraceClose
  | unsupportedValueType
  deriving DecidableEq

/-- `ParseError`: message kind plus byte position. -/
structure PErr where
  kind : ErrKind
  pos : Int
  deriving DecidableEq

/-- One diagnostic record appended to `WARNINGS` (kind plus its fields). -/
inductive Warn where
  | short (atByte : Int) (declared : Int) (actual : Nat)
  | mismatch (atByte : Int) (declared : Int) (actual : Nat)
  | trailing (atByte : Int) (bytesRemaining : Int)
  deriving DecidableEq

/-- A container key: Python int or str (text as a list of code points). -/
inductive PKey where
  | int (n : Int)
  | str (s : List Nat)
  deriving DecidableEq

/-- The decoded value tree.  A float is represented by the literal bytes that
Python `float()` accepted (the numeric f64 value itself is not needed by any
claim); a string by its decoded code points; a map by its entries in
insertion order. -/
inductive Value where
  | null
  | bool (b : Bool)
  | int (n : Int)
  | float (raw : List Nat)
  | str (cps : List Nat)
  | list (items : List Value)
  | map (entries : List (PKey × Value))

/-- `_read_until`: find the delimiter from `i`, return the slice before it and
the offset just past it. -/
def read_until (b : List Nat) (i : Int) (delim : Nat) :
    Except PErr (List Nat × Int) :=
  match pyFindByte b delim i (b.length : Int) with
  | none => .error ⟨.delimNotFound, i⟩
  | some j => .ok (pySlice b i j, (j : Int) + 1)

/-- `_parse_int`: read until `;`, then Python `int()`. -/
def parse_int (b : List Nat) (i : Int) : Except PErr (Int × Int) :=
  match read_until b i 59 with
  | .error e => .error e
  | .ok (num, i') =>
    match pyIntParse num with
    | some n => .ok (n, i')
    | none => .error ⟨.invalidInteger, i'⟩

/-- `_parse_float`: read until `;`, then Python `float()`; the accepted
literal bytes are kept as the value. -/
def parse_float (b : List Nat) (i : Int) : Except PErr (List Nat × Int) :=
  match read_until b i 59 with
  | .error e => .error e
  | .ok (num, i') =>
    if pyFloatOk num then .ok (num, i') else .error ⟨.invalidFloat, i'⟩

/-- `_parse_bool`: expect `0;` or `1;`. -/
def parse_bool (b : List Nat) (i : Int) : Except PErr (Bool × Int) :=
  if pySlice b i (i + 2) = [48, 59] ∨ pySlice b i (i + 2) = [49, 59] then
    .ok (pySlice b i (i + 1) == [49], i + 2)
  else .error ⟨.invalidBool, i⟩

/-- Search loop of `_lenient_scan_close`: find the next `"` in
`[k, eAdj)`; skip `b' \t\r\n'`; if a `;` follows, succeed with the quote
position and the offset just past the `;`, else retry from the next byte.
`gas` dominates the iteration count (the wrapper supplies `eAdj + 1`, enough
since `k` strictly increases). -/
def scan_step (b : List Nat) (eAdj : Nat) : Nat → Nat → Option (Nat × Int)
  | 0, _ => none
  | g + 1, k =>
    match (List.range' k (eAdj - k)).find? (fun j => b.getD j 0 == 34) with
    | none => none
    | some q =>
      let j := ws_skip b ((q : Int) + 1)
      if pySlice b j (j + 1) = [59] then some (q, j + 1)
      else scan_step b eAdj g (q + 1)

/-- `_lenient_scan_close`: bounded forward scan (1,000,000-byte lookahead) for
a `"` followed by optional `b' \t\r\n'` whitespace and `;`; on success return
the payload `b[start:quote]` and the resume offset just past the `;`. -/
def lenient_scan_close (b : List Nat) (start : Int) : Option (List Nat × Int) :=
  let endLimit : Int := min (b.length : Int) (start + 1000000)
  let eAdj := pyAdj b.length endLimit
  match scan_step b eAdj (eAdj + 1) (pyAdj b.length start) with
  | none => none
  | some (q, resume) => some (pySlice b start q, resume)

/-- `_parse_string` (called just past the `s:` tag): read the declared length,
expect `"`; if fewer bytes remain than declared, fail (strict) or repair via
the bounded scan, emitting a `string_length_repair_short` diagnostic
(lenient); otherwise slice the declared bytes and require `"` + whitespace +
`;`, falling back to the scan with a possible `string_length_repair_mismatch`
diagnostic when lenient. -/
def parse_string (lenient : Bool) (b : List Nat) (i : Int) (ws : List Warn) :
    Except PErr (List Nat × Int × List Warn) :=
  match read_until b i 58 with
  | .error e => .error e
  | .ok (strlenBytes, i1) =>
    match pyIntParse strlenBytes with
    | none => .error ⟨.invalidStringLength, i1⟩
    | some strlen =>
      if pySlice b i1 (i1 + 1) ≠ [34] then .error ⟨.expectedOpeningQuote, i1⟩
      else
        let start := i1 + 1
        if (b.length : Int) - start < strlen then
          if lenient = false then .error ⟨.stringTooShort, start⟩
          else
            match lenient_scan_close b start with
            | none => .error ⟨.noViableClosing, start⟩
            | some (sb, iNew) =>
              .ok (decode_bytes sb, iNew, ws ++ [.short start strlen sb.length])
        else
          let endExpected := start + strlen
          let sbytes := pySlice b start endExpected
          let i2 := ws_skip b (endExpected + 1)
          if pySlice b endExpected (endExpected + 1) = [34] ∧
              pySlice b i2 (i2 + 1) = [59] then
            .ok (decode_bytes sbytes, i2 + 1, ws)
          else
            let iCur :=
              if pySlice b endExpected (endExpected + 1) = [34] then i2
              else endExpected
            if lenient = true then
              match lenient_scan_close b start with
              | none => .error ⟨.expectedClosing, iCur⟩
              | some (sb2, iNew) =>
                let ws' :=
                  if (sb2.length : Int) ≠ strlen then
                    ws ++ [.mismatch start strlen sb2.length]
                  else ws
                .ok (decode_bytes sb2, iNew, ws')
            else .error ⟨.expectedClosing, iCur⟩

/-- `_parse_key`: an `i:` integer key or `s:` string key; anything else is a
hard error. -/
def parse_key (lenient : Bool) (b : List Nat) (i : Int) (ws : List Warn) :
    Except PErr (PKey × Int × List Warn) :=
  let t := pySlice b i (i + 2)
  if t = [105, 58] then
    match parse_int b (i + 2) with
    | .error e => .error e
    | .ok (n, i') => .ok (.int n, i', ws)
  else if t = [115, 58] then
    match parse_string lenient b (i + 2) ws with
    | .error e => .error e
    | .ok (s, i', ws') => .ok (.str s, i', ws')
  else .error ⟨.unsupportedKeyType, i⟩

/-- Parse result: success, `ParseError`, or recursion-fuel exhaustion (the
Python original has no fuel; `nofuel` marks runs that would need deeper
recursion than the supplied bound, and no claim is settled on it). -/
inductive PRes (α : Type) where
  | ok (a : α)
  | err (e : PErr)
  | nofuel

/-- Python `dict` insertion: an existing key keeps its position and gets the
new value (last write wins); a new key is appended. -/
def dictInsert (d : List (PKey × Value)) (k : PKey) (v : Value) :
    List (PKey × Value) :=
  if d.any (fun kv => kv.1 == k) then
    d.map (fun kv => if kv.1 == k then (kv.1, v) else kv)
  else d ++ [(k, v)]

/-- The `for _ in range(count)` loop of the `a:` branch: parse `count`
key/value pairs, accumulating them in order. -/
def parse_items (pk : Int → List Warn → Except PErr (PKey × Int × List Warn))
    (pv : Int → List Warn → PRes (Value × Int × List Warn)) :
    Nat → Int → List Warn → List (PKey × Value) →
    PRes (List (PKey × Value) × Int × List Warn)
  | 0, i, ws, acc => .ok (acc, i, ws)
  | c + 1, i, ws, acc =>
    match pk i ws with
    | .error e => .err e
    | .ok (k, i1, ws1) =>
      match pv i1 ws1 with
      | .nofuel => .nofuel
      | .err e => .err e
      | .ok (v, i2, ws2) => parse_items pk pv c i2 ws2 (acc ++ [(k, v)])

/-- The `a:<count>:{...}` tail of `_parse_value` (entered just past the `a:`
tag), parameterized by the key parser and the value parser used for the
`count` key/value productions: read the count, expect `{`, run the item
loop, expect `}`, then reclassify as List exactly when the keys are the
integers `0..count-1` in order, else fold into a Map (last write wins). -/
def parse_array_tail (pk : Int → List Warn → Except PErr (PKey × Int × List Warn))
    (pv : Int → List Warn → PRes (Value × Int × List Warn)) (b : List Nat)
    (i : Int) (ws : List Warn) : PRes (Value × Int × List Warn) :=
  match read_until b i 58 with
  | .error e => .err e
  | .ok (countBytes, i1) =>
    match pyIntParse countBytes with
    | none => .err ⟨.invalidArrayCount, i1⟩
    | some count =>
      if pySlice b i1 (i1 + 1) ≠ [123] then .err ⟨.expectedBraceOpen, i1⟩
      else
        match parse_items pk pv count.toNat (i1 + 1) ws [] with
        | .nofuel => .nofuel
        | .err e => .err e
        | .ok (items, i2, ws2) =>
          if pySlice b i2 (i2 + 1) ≠ [125] then .err ⟨.expectedBraceClose, i2⟩
          else
            let keys := items.map Prod.fst
            if keys ≠ [] ∧
                keys.all (fun k => match k with
                  | .int _ => true | .str _ => false) = true ∧
                keys = (List.range keys.length).map
                  (fun n => PKey.int (Int.ofNat n)) then
              .ok (.list (items.map Prod.snd), i2 + 1, ws2)
            else
              .ok (.map (items.foldl
                (fun d kv => dictInsert d kv.1 kv.2) []), i2 + 1, ws2)

/-- `_parse_value`: dispatch on the two-byte lead tag.  The body is shared
between all recursion depths; `deeper` is the parser used for the values of
an `a:` container (absent when the depth bound is exhausted). -/
def parse_value_body (lenient : Bool) (b : List Nat)
    (deeper : Option (Int → List Warn → PRes (Value × Int × List Warn)))
    (i : Int) (ws : List Warn) : PRes (Value × Int × List Warn) :=
  let t := pySlice b i (i + 2)
  if t = [115, 58] then
    match parse_string lenient b (i + 2) ws with
    | .error e => .err e
    | .ok (s, i', ws') => .ok (.str s, i', ws')
  else if t = [105, 58] then
    match parse_int b (i + 2) with
    | .error e => .err e
    | .ok (n, i') => .ok (.int n, i', ws)
  else if t = [100, 58] then
    match parse_float b (i + 2) with
    | .error e => .err e
    | .ok (raw, i') => .ok (.float raw, i', ws)
  else if t = [98, 58] then
    match parse_bool b (i + 2) with
    | .error e => .err e
    | .ok (v, i') => .ok (.bool v, i', ws)
  else if pySlice b i (i + 2) = [78, 59] then
    .ok (.null, i + 2, ws)
  else if t = [97, 58] then
    match deeper with
    | none => .nofuel
    | some pv => parse_array_tail (parse_key lenient b) pv b (i + 2) ws
  else .err ⟨.unsupportedValueType, i⟩

/-- `_parse_value` with a container nesting-depth bound `fuel` (the Python
original bounds this by the interpreter recursion limit; `nofuel` marks runs
that would need more depth, and no claim is settled on a `nofuel` result). -/
def parse_value (lenient : Bool) (b : List Nat) :
    Nat → Int → List Warn → PRes (Value × Int × List Warn)
  | 0, i, ws => parse_value_body lenient b none i ws
  | fuel' + 1, i, ws =>
    parse_value_body lenient b (some (parse_value lenient b fuel')) i ws

/-- `php_unserialize` on raw bytes: parse a value at offset 0, then emit a
`trailing_data` diagnostic when non-whitespace bytes remain. -/
def php_unserialize (lenient : Bool) (fuel : Nat) (b : List Nat) :
    PRes (Value × Int × List Warn) :=
  match parse_value lenient b fuel 0 [] with
  | .nofuel => .nofuel
  | .err e => .err e
  | .ok (v, pos, ws) =>
    if stripPyWS (pySlice b pos (b.length : Int)) ≠ [] then
      .ok (v, pos, ws ++ [.trailing pos ((b.length : Int) - pos)])
    else .ok (v, pos, ws)

/-- ASCII bytes of a string literal (all inputs used are ASCII). -/
def strBytes (s : String) : List Nat := s.data.map Char.toNat

/- ================= Text layer (Python str, as List Char) ================= -/

/-- Unicode whitespace as matched by Python `str.isspace` / regex `\s` on
`str` (ASCII whitespace plus the Unicode space characters). -/
def pyStrWS (c : Char) : Bool :=
  let n := c.toNat
  n == 32 || n == 9 || n == 10 || n == 13 || n == 11 || n == 12 ||
  (decide (28 ≤ n) && decide (n ≤ 31)) || n == 133 || n == 160 || n == 5760 ||
  (decide (8192 ≤ n) && decide (n ≤ 8202)) || n == 8232 || n == 8233 ||
  n == 8239 || n == 8287 || n == 12288

/-- Python `str.strip()`. -/
def pyStrStrip (s : List Char) : List Char :=
  ((s.dropWhile pyStrWS).reverse.dropWhile pyStrWS).reverse

/-- Horizontal whitespace `[ \t\f\v]` of the cleanup collapse regex. -/
def isHWS (c : Char) : Bool :=
  c.toNat == 32 || c.toNat == 9 || c.toNat == 12 || c.toNat == 11

def lbrace : Char := Char.ofNat 123

def rbrace : Char := Char.ofNat 125

/-- `re.sub(r'[ \t\f\v]+', ' ', s)`: collapse every maximal run of horizontal
whitespace to a single space. -/
def collapse_hws : List Char → List Char
  | [] => []
  | [c] => if isHWS c then [' '] else [c]
  | c :: d :: r =>
    if isHWS c ∧ isHWS d then collapse_hws (d :: r)
    else (if isHWS c then ' ' else c) :: collapse_hws (d :: r)

/-- One left-to-right pass of `re.sub(r'\s*X\s*', 'X', s)` for a single
anchor character `X` (`gas` dominates the number of steps; each step consumes
at least one character). -/
def sub_around_gas (c : Char) : Nat → List Char → List Char
  | 0, l => l
  | _ + 1, [] => []
  | g + 1, a :: r =>
    if a = c then c :: sub_around_gas c g (r.dropWhile pyStrWS)
    else if pyStrWS a then
      match (a :: r).dropWhile pyStrWS with
      | b :: rest =>
        if b = c then c :: sub_around_gas c g (rest.dropWhile pyStrWS)
        else a :: sub_around_gas c g r
      | [] => a :: sub_around_gas c g r
    else a :: sub_around_gas c g r

def sub_around (c : Char) (s : List Char) : List Char :=
  sub_around_gas c (s.length + 1) s

/-- Python `str.replace(old, new)` with nonempty `old`: replace leftmost
non-overlapping occurrences (every call site uses a nonempty `old`). -/
def pyReplace_gas (old new : List Char) : Nat → List Char → List Char
  | 0, l => l
  | _ + 1, [] => []
  | g + 1, a :: r =>
    if old ≠ [] ∧ old.isPrefixOf (a :: r) then
      new ++ pyReplace_gas old new g ((a :: r).drop old.length)
    else a :: pyReplace_gas old new g r

def pyReplace (old new s : List Char) : List Char :=
  pyReplace_gas old new (s.length + 1) s

/-- Leftmost non-overlapping occurrence count of `pat`, with the same scan
discipline as `pyReplace`. -/
def countOcc_gas (pat : List Char) : Nat → List Char → Nat
  | 0, _ => 0
  | _ + 1, [] => 0
  | g + 1, a :: r =>
    if pat ≠ [] ∧ pat.isPrefixOf (a :: r) then
      1 + countOcc_gas pat g ((a :: r).drop pat.length)
    else countOcc_gas pat g r

def countOcc (pat s : List Char) : Nat := countOcc_gas pat (s.length + 1) s

/- ==================== safe_cleanup_shell_only ==================== -/

/-- Content part of the `_STRING_TOKEN` regex
`s:(\d+):"((?:\\.|[^"\\])*)";`: escape pairs or plain characters up to the
first unescaped `"`; returns the content and the rest after that quote. -/
def scanContent : List Char → Option (List Char × List Char)
  | [] => none
  | a :: r =>
    if a = '"' then some ([], r)
    else if a = '\\' then
      match r with
      | [] => none
      | d :: r' => (scanContent r').map (fun p => (a :: d :: p.1, p.2))
    else (scanContent r).map (fun p => (a :: p.1, p.2))

/-- Match the `_STRING_TOKEN` regex at the head of the text, returning the
whole matched token and the rest.  (Python `\d` on `str` also matches
non-ASCII decimal digits; the tokens relevant here use ASCII digits.) -/
def matchToken? (l : List Char) : Option (List Char × List Char) :=
  match l with
  | 's' :: ':' :: r1 =>
    let ds := r1.takeWhile Char.isDigit
    (match r1.dropWhile Char.isDigit with
     | ':' :: '"' :: r3 =>
       if ds = [] then none
       else
         match scanContent r3 with
         | none => none
         | some (content, r4) =>
           match r4 with
           | ';' :: r5 =>
             some ('s' :: ':' :: (ds ++ ':' :: '"' :: (content ++ ['"', ';'])), r5)
           | _ => none
     | _ => none)
  | _ => none

/-- Leftmost non-overlapping `_STRING_TOKEN` scan (as `re.sub` performs):
split the text into (preceding-text, token) pairs plus the final tail. -/
def stash_split_gas : Nat → List Char → List (List Char × List Char) × List Char
  | 0, l => ([], l)
  | _ + 1, [] => ([], [])
  | g + 1, a :: r =>
    match matchToken? (a :: r) with
    | some (tok, rest) =>
      let p := stash_split_gas g rest
      (([], tok) :: p.1, p.2)
    | none =>
      let p := stash_split_gas g r
      match p.1 with
      | [] => ([], a :: p.2)
      | (o, t) :: ps' => ((a :: o, t) :: ps', p.2)

def stash_split (s : List Char) : List (List Char × List Char) × List Char :=
  stash_split_gas (s.length + 1) s

/-- Decimal digits of `n`, most significant first (Python `f'{n}'`). -/
def natDigitsGo : Nat → Nat → List Char → List Char
  | 0, _, acc => acc
  | g + 1, n, acc =>
    if n < 10 then Char.ofNat (48 + n) :: acc
    else natDigitsGo g (n / 10) (Char.ofNat (48 + n % 10) :: acc)

def natDigits (n : Nat) : List Char := natDigitsGo (n + 1) n []

/-- The stash placeholder `@@S{k}@@`. -/
def ph (k : Nat) : List Char :=
  '@' :: '@' :: 'S' :: (natDigits k ++ ['@', '@'])

/-- The shell produced by the stash pass: preceding text pieces interleaved
with placeholders `@@S{k}@@` numbered from `k`. -/
def shellOf : Nat → List (List Char × List Char) → List Char → List Char
  | _, [], fin => fin
  | k, (o, _) :: ps, fin => o ++ ph k ++ shellOf (k + 1) ps fin

/-- The shell transformation pipeline of `safe_cleanup_shell_only`:
`html.unescape` (the oracle `u`), collapse horizontal whitespace, then strip
whitespace around `;`, `:`, the open brace and the close brace. -/
def shellTransform (u : List Char → List Char) (s : List Char) : List Char :=
  sub_around rbrace (sub_around lbrace (sub_around ':' (sub_around ';'
    (collapse_hws (u s)))))

/-- The restore loop: `shell.replace('@@S{k}@@', tok)` for each stashed token
in index order. -/
def restore_go : List (List Char) → Nat → List Char → List Char
  | [], _, s => s
  | t :: ts, k, s => restore_go ts (k + 1) (pyReplace (ph k) t s)

/-- `safe_cleanup_shell_only` with the HTML-unescape oracle `u`: stash every
`_STRING_TOKEN` match behind `@@S{k}@@`, transform the shell, then replace
each placeholder by its saved token. -/
def safe_cleanup_shell_only (u : List Char → List Char) (s : List Char) :
    List Char :=
  let p := stash_split s
  restore_go (p.1.map Prod.snd) 0 (shellTransform u (shellOf 0 p.1 p.2))

/- ==================== Leading noise and JSON extraction ==================== -/

/-- `strip_leading_noise` via the `LEAD_NOISE` regex
`(?s)\A(?:﻿|[\x00-\x1F\x7F]+|[^\{\[]+)*(?=(\{|\[))`: every alternative
matches only non-bracket characters (the BOM and control-character
alternatives are subsumed by `[^\{\[]+`), and the greedy star with the
lookahead matches exactly the prefix up to the first `{` or `[`.  With no
bracket in the text the regex cannot match and the text is returned
unchanged. -/
def strip_leading_noise (s : List Char) : List Char :=
  match s.findIdx? (fun c => c == lbrace || c == '[') with
  | some p => s.drop p
  | none => s

/-- `re.sub(r'[​-‏‪-‮]', '', s)`: remove zero-width and
directional-formatting characters. -/
def removeZeroWidth (s : List Char) : List Char :=
  s.filter (fun c =>
    !((decide (8203 ≤ c.toNat) && decide (c.toNat ≤ 8207)) ||
      (decide (8234 ≤ c.toNat) && decide (c.toNat ≤ 8238))))

/-- Start positions of each occurrence of `c` (`re.finditer` of the escaped
character). -/
def indicesOf (c : Char) (s : List Char) : List Nat :=
  (List.range s.length).filter (fun i => s.getD i ' ' == c)

/-- The bracket-depth scan of `_try_blocks`, starting at an occurrence of the
open character: track depth over a single forward pass; when a close
character returns the depth to zero, report the candidate length. -/
def find_balance (o c : Char) : List Char → Int → Nat → Option Nat
  | [], _, _ => none
  | ch :: r, d, n =>
    if ch = o then find_balance o c r (d + 1) (n + 1)
    else if ch = c then
      if d - 1 = 0 then some (n + 1) else find_balance o c r (d - 1) (n + 1)
    else find_balance o c r d (n + 1)

/- ------------------------- _loose_json_fixes ------------------------- -/

def isNameChar (c : Char) : Bool := c.isAlphanum || c == '_' || c == '-'

/-- `re.sub(r"(?<!\\)'([A-Za-z0-9_\-]+)'\s*:", r'"\1":', t)`: single-quoted
simple keys become double-quoted.  The `prev` argument carries the original
character preceding the scan position (the negative lookbehind). -/
def sub1_gas : Nat → Option Char → List Char → List Char
  | 0, _, l => l
  | _ + 1, _, [] => []
  | g + 1, prev, a :: r =>
    if a = '\'' ∧ prev ≠ some '\\' then
      let nm := r.takeWhile isNameChar
      match r.dropWhile isNameChar with
      | q :: r3 =>
        if nm ≠ [] ∧ q = '\'' then
          match r3.dropWhile pyStrWS with
          | colon :: r5 =>
            if colon = ':' then
              ('"' :: (nm ++ ['"', ':'])) ++ sub1_gas g (some ':') r5
            else a :: sub1_gas g (some a) r
          | [] => a :: sub1_gas g (some a) r
        else a :: sub1_gas g (some a) r
      | [] => a :: sub1_gas g (some a) r
    else a :: sub1_gas g (some a) r

/-- Single-quoted string content `[^'\\]*(?:\\.[^'\\]*)*` up to the closing
quote; returns the content and the rest after the quote. -/
def scanSq : List Char → Option (List Char × List Char)
  | [] => none
  | a :: r =>
    if a = '\'' then some ([], r)
    else if a = '\\' then
      match r with
      | [] => none
      | d :: r' => (scanSq r').map (fun p => (a :: d :: p.1, p.2))
    else (scanSq r).map (fun p => (a :: p.1, p.2))

/-- The replacement's `group(1).replace('"', '\\"')`. -/
def escDq : List Char → List Char
  | [] => []
  | a :: r => if a = '"' then '\\' :: '"' :: escDq r else a :: escDq r

/-- `re.sub(r":\s*'([^'\\]*(?:\\.[^'\\]*)*)'", lambda ...)`: single-quoted
string values become `: "..."` with embedded double quotes escaped. -/
def sub2_gas : Nat → List Char → List Char
  | 0, l => l
  | _ + 1, [] => []
  | g + 1, a :: r =>
    if a = ':' then
      match r.dropWhile pyStrWS with
      | q :: r3 =>
        if q = '\'' then
          match scanSq r3 with
          | some (content, r4) =>
            (':' :: ' ' :: '"' :: (escDq content ++ ['"'])) ++ sub2_gas g r4
          | none => a :: sub2_gas g r
        else a :: sub2_gas g r
      | [] => a :: sub2_gas g r
    else a :: sub2_gas g r

/-- `re.sub(r',\s*([}\]])', r'\1', t)`: drop a trailing comma before a
closing brace or bracket. -/
def sub3_gas : Nat → List Char → List Char
  | 0, l => l
  | _ + 1, [] => []
  | g + 1, a :: r =>
    if a = ',' then
      match r.dropWhile pyStrWS with
      | b2 :: r3 =>
        if b2 = rbrace ∨ b2 = ']' then b2 :: sub3_gas g r3
        else a :: sub3_gas g r
      | [] => a :: sub3_gas g r
    else a :: sub3_gas g r

/-- `_loose_json_fixes` with the strict-JSON-parse-and-redump oracle `jd`
(standing for `json.dumps(json.loads(t), ensure_ascii=False)`, `none` when
`json.loads` raises). -/
def loose_json_fixes (jd : List Char → Option (List Char)) (txt : List Char) :
    Option (List Char) :=
  let t1 := sub1_gas (txt.length + 1) none txt
  let t2 := sub2_gas (t1.length + 1) t1
  let t3 := sub3_gas (t2.length + 1) t2
  jd t3

/-- Inner loop of `_try_blocks` over the start positions of the open
character: scan for the balanced span, strict-parse it, loose-repair it,
otherwise move to the next start. -/
def try_blocks_go (jd : List Char → Option (List Char)) (o c : Char)
    (s : List Char) : List Nat → Option (List Char)
  | [] => none
  | st :: rest =>
    match find_balance o c (s.drop st) 0 0 with
    | none => try_blocks_go jd o c s rest
    | some n =>
      match jd ((s.drop st).take n) with
      | some out => some out
      | none =>
        match loose_json_fixes jd ((s.drop st).take n) with
        | some rep => some rep
        | none => try_blocks_go jd o c s rest

def try_blocks (jd : List Char → Option (List Char)) (o c : Char)
    (s : List Char) : Option (List Char) :=
  try_blocks_go jd o c s (indicesOf o s)

/-- The preprocessing of `tidy_text_and_find_json`: `strip`, newline
normalization, HTML unescape (oracle `u`), zero-width removal, leading-noise
strip. -/
def tidy_preprocess (u : List Char → List Char) (s : List Char) : List Char :=
  strip_leading_noise (removeZeroWidth
    (u (pyReplace ['\r'] ['\n'] (pyReplace ['\r', '\n'] ['\n'] (pyStrStrip s)))))

/-- `tidy_text_and_find_json`: preprocess, then try `{...}` blocks, then
`[...]` blocks. -/
def tidy_text_and_find_json (u : List Char → List Char)
    (jd : List Char → Option (List Char)) (s : List Char) :
    Option (List Char) :=
  let s3 := tidy_preprocess u s
  match try_blocks jd lbrace rbrace s3 with
  | some j => some j
  | none => try_blocks jd '[' ']' s3

/- ========================= on_convert orchestration ========================= -/

/-- UTF-8 encoding of one code point (with `surrogatepass`, surrogates are
encoded like ordinary 3-byte code points). -/
def utf8EncodeCp (n : Nat) : List Nat :=
  if n ≤ 127 then [n]
  else if n ≤ 2047 then [192 + n / 64, 128 + n % 64]
  else if n ≤ 65535 then [224 + n / 4096, 128 + (n / 64) % 64, 128 + n % 64]
  else [240 + n / 262144, 128 + (n / 4096) % 64, 128 + (n / 64) % 64,
    128 + n % 64]

/-- `raw.encode('utf-8', errors='surrogatepass')`. -/
def encodeSP (s : List Char) : List Nat :=
  s.foldr (fun c acc => utf8EncodeCp c.toNat ++ acc) []

/-- The observable outcome of one `on_convert` run.  `parseFailure` is the
outer `except ParseError` handler, the only handler that renders the byte
offset and the context snippet with the pointer marker; `otherError` is the
generic `except Exception` handler, which renders only `{"error": str(e)}`
with no byte offset and no context. -/
inductive ConvertOutcome where
  | emptyInput
  | embeddedJson (out : List Char)
  | converted (v : Value) (diags : List Warn)
  | plainJson (out : List Char)
  | parseFailure (e : PErr)
  | otherError
  | nofuel

/-- The inner conversion of `on_convert`: grammar decode; on `ParseError` try
a strict JSON parse of the noise-stripped text; when that also fails, the
bare `raise` inside `except Exception:` re-raises the *JSON* exception (the
exception currently being handled), which the outer `except ParseError`
clause does not match, so control reaches the generic handler: the outcome is
`otherError`, not `parseFailure`. -/
def convert_core (jd : List Char → Option (List Char)) (lenient : Bool)
    (fuel : Nat) (r : List Char) : ConvertOutcome :=
  match php_unserialize lenient fuel (encodeSP r) with
  | .nofuel => .nofuel
  | .ok (v, _, ws) => .converted v ws
  | .err _ =>
    match jd (strip_leading_noise r) with
    | some out => .plainJson out
    | none => .otherError

/-- `PhpToJsonApp.on_convert` (decode pipeline only; text-widget plumbing and
output formatting aside): strip the input, optionally clean and attempt
embedded-JSON extraction, then decode with the configured leniency. -/
def on_convert (u : List Char → List Char)
    (jd : List Char → Option (List Char)) (cleanup lenient : Bool)
    (fuel : Nat) (raw0 : List Char) : ConvertOutcome :=
  let raw := pyStrStrip raw0
  if raw = [] then .emptyInput
  else if cleanup then
    let raw' := safe_cleanup_shell_only u raw
    match tidy_text_and_find_json u jd raw' with
    | some j => .embeddedJson j
    | none => convert_core jd lenient fuel raw'
  else convert_core jd lenient fuel raw

/- ========================= Specification-side definitions ========================= -/

/-- Spec side (C1): the keys are exactly `0, 1, ..., n-1` in that order. -/
def canonicalIntKeys (keys : List PKey) : Prop :=
  keys = (List.range keys.length).map (fun n => PKey.int (Int.ofNat n))

instance (keys : List PKey) : Decidable (canonicalIntKeys keys) := by
  unfold canonicalIntKeys; infer_instance

/-- Lookup in an insertion-ordered map. -/
def lookupKey (d : List (PKey × Value)) (k : PKey) : Option Value :=
  (d.find? (fun kv => kv.1 == k)).map Prod.snd

/-- The value of the last pair with the given key, in parse order. -/
def lastAssoc (items : List (PKey × Value)) (k : PKey) : Option Value :=
  (items.reverse.find? (fun kv => kv.1 == k)).map Prod.snd

/-- Keys in order of first occurrence, skipping those already seen. -/
def dedupNewKeys (seen : List PKey) : List PKey → List PKey
  | [] => []
  | k :: ks =>
    if seen.contains k then dedupNewKeys seen ks
    else k :: dedupNewKeys (seen ++ [k]) ks

/-- The associative-array fold of the `a:` branch. -/
def dictFold (items : List (PKey × Value)) : List (PKey × Value) :=
  items.foldl (fun d kv => dictInsert d kv.1 kv.2) []

/-- Spec side (C9 amended): the input contains no `-` byte, so no negative
declared string length can occur. -/
def noMinus (b : List Nat) : Prop := ¬ 45 ∈ b

/-- Spec side (C4): index of the first non-`b' \t\r\n'` byte at or after
`p`. -/
def wsEndNat (b : List Nat) (p : Nat) : Nat :=
  p + ((b.drop p).takeWhile isScanWS).length

/-- Spec side (C4): position `q` holds a `"` followed by zero or more
`b' \t\r\n'` whitespace bytes and then a `;`. -/
def viableClose (b : List Nat) (q : Nat) : Prop :=
  b.getD q 0 = 34 ∧ wsEndNat b (q + 1) < b.length ∧
    b.getD (wsEndNat b (q + 1)) 0 = 59

instance (b : List Nat) (q : Nat) : Decidable (viableClose b q) := by
  unfold viableClose; infer_instance

/-- Spec side (C4): the earliest viable quote position in `[s, e)`. -/
def firstViable (b : List Nat) (s e : Nat) : Option Nat :=
  (List.range' s (e - s)).find? (fun q => decide (viableClose b q))

/-- Spec side (C7): strict parse, then loose repair, of one candidate. -/
def attemptCandidate (jd : List Char → Option (List Char))
    (cand : List Char) : Option (List Char) :=
  match jd cand with
  | some out => some out
  | none => loose_json_fixes jd cand

/-- Spec side (C7): the balanced spans starting at each occurrence of the
open character, in left-to-right start order. -/
def candidatesOf (o c : Char) (s : List Char) : List (List Char) :=
  (indicesOf o s).filterMap
    (fun st => (find_balance o c (s.drop st) 0 0).map
      (fun n => (s.drop st).take n))

/-- Spec side (C7), following the claim's words: strip leading noise, then
try every `{`-candidate in start order, then every `[`-candidate, returning
the first that parses (strictly or loosely); absent when none does. -/
def find_json_spec (u : List Char → List Char)
    (jd : List Char → Option (List Char)) (s : List Char) :
    Option (List Char) :=
  let s3 := tidy_preprocess u s
  (candidatesOf lbrace rbrace s3 ++ candidatesOf '[' ']' s3).findSome?
    (attemptCandidate jd)

/-- Spec side (C6 amended): the transformed shell with placeholders still in
place, numbered from `k`. -/
def tshell_from (u : List Char → List Char) :
    Nat → List (List Char × List Char) → List Char → List Char
  | _, [], fin => shellTransform u fin
  | k, (o, _) :: ps, fin =>
    shellTransform u o ++ ph k ++ tshell_from u (k + 1) ps fin

/-- Spec side (C6 amended): the claimed cleanup result — each stashed token
byte-for-byte unchanged, the shell transformation applied only to the text
outside the tokens. -/
def stitched_from (u : List Char → List Char) :
    List (List Char × List Char) → List Char → List Char
  | [], fin => shellTransform u fin
  | (o, t) :: ps, fin => shellTransform u o ++ t ++ stitched_from u ps fin

/-- Spec side (C6 amended): no placeholder collision during restoration — at
each restore step the placeholder `@@S{k}@@` occurs exactly once in the
current text, namely at its stashed position. -/
def restore_ok (u : List Char → List Char) :
    Nat → List Char → List (List Char × List Char) → List Char → Bool
  | _, _, [], _ => true
  | k, pre, (o, t) :: ps, fin =>
    let A := pre ++ shellTransform u o
    let S := A ++ ph k ++ tshell_from u (k + 1) ps fin
    (decide (∀ p, p < A.length → (ph k).isPrefixOf (S.drop p) = false)) &&
      (countOcc (ph k) S == 1) &&
      restore_ok u (k + 1) (A ++ t) ps fin

/- ========================= Primitive lemmas ========================= -/

/-- A successful one-byte slice `b[j:j+1]` means `j + 1` is a valid offset
bound (for negative `j` trivially, since offsets left of 0 stay below the
length). -/
theorem pySlice_one_le {b : List Nat} {j : Int} {x : Nat}
    (h : pySlice b j (j + 1) = [x]) : j + 1 ≤ (b.length : Int) := by
  rcases lt_or_le j 0 with hj | hj
  · omega
  · have hl : (pySlice b j (j + 1)).length = 1 := by rw [h]; rfl
    simp only [pySlice, pyAdj, List.length_take, List.length_drop] at hl
    split_ifs at hl <;> omega

/-- A successful two-byte slice `b[i:i+2]` means `i + 2` is a valid offset
bound. -/
theorem pySlice_two_le {b : List Nat} {i : Int} {x y : Nat}
    (h : pySlice b i (i + 2) = [x, y]) : i + 2 ≤ (b.length : Int) := by
  rcases lt_or_le i (-1) with hi | hi
  · omega
  · have hl : (pySlice b i (i + 2)).length = 2 := by rw [h]; rfl
    simp only [pySlice, pyAdj, List.length_take, List.length_drop] at hl
    split_ifs at hl <;> omega

/-- For a natural position, the one-byte slice is the byte at that position,
when in range. -/
theorem pySlice_one_nat {b : List Nat} (j : Nat) {x : Nat} :
    pySlice b (j : Int) ((j : Int) + 1) = [x] ↔ j < b.length ∧ b.getD j 0 = x := by
  constructor
  · intro h
    have hlt : j < b.length := by
      have := pySlice_one_le h
      rcases lt_or_le j b.length with h1 | h1
      · exact h1
      · exfalso; omega
    refine ⟨hlt, ?_⟩
    have hd : b.drop j = b.getD j 0 :: b.drop (j + 1) := by
      rw [List.getD_eq_getElem _ _ hlt]
      exact List.drop_eq_getElem_cons hlt
    simp only [pySlice, pyAdj] at h
    split_ifs at h with h1 h2 <;> try omega
    · have hs : ((j : Int)).toNat = j := Int.toNat_natCast j
      have he : ((j : Int) + 1).toNat = j + 1 := by omega
      rw [hs, he] at h
      rw [min_eq_left hlt.le, min_eq_left (by omega : j + 1 ≤ b.length)] at h
      rw [hd, (by omega : j + 1 - j = 1), List.take_succ_cons, List.take_zero,
        List.cons.injEq] at h
      exact h.1
  · rintro ⟨hlt, hx⟩
    have hd : b.drop j = b.getD j 0 :: b.drop (j + 1) := by
      rw [List.getD_eq_getElem _ _ hlt]
      exact List.drop_eq_getElem_cons hlt
    simp only [pySlice, pyAdj]
    split_ifs with h1 h2 <;> try omega
    have hs : ((j : Int)).toNat = j := Int.toNat_natCast j
    have he : ((j : Int) + 1).toNat = j + 1 := by omega
    rw [hs, he, min_eq_left hlt.le, min_eq_left (by omega : j + 1 ≤ b.length), hd,
      (by omega : j + 1 - j = 1), List.take_succ_cons, List.take_zero, hx]

/-- Characterization of `find?` over `range'`: the found element satisfies
the predicate, lies in the range, and is the first to do so. -/
theorem find?_range'_some {p : Nat → Bool} :
    ∀ {n s q : Nat}, (List.range' s n).find? p = some q →
      p q = true ∧ s ≤ q ∧ q < s + n ∧ ∀ m, s ≤ m → m < q → p m = false := by
  intro n
  induction n with
  | zero => intro s q h; simp [List.range'] at h
  | succ n ih =>
    intro s q h
    rw [List.range'_succ, List.find?_cons] at h
    rcases hp : p s with _ | _
    · rw [hp] at h
      simp only at h
      obtain ⟨h1, h2, h3, h4⟩ := ih h
      exact ⟨h1, by omega, by omega, fun m hm1 hm2 => by
        rcases Nat.eq_or_lt_of_le hm1 with rfl | hlt
        · exact hp
        · exact h4 m hlt hm2⟩
    · rw [hp] at h
      simp only [Option.some.injEq] at h
      subst h
      exact ⟨hp, le_refl _, by omega, fun m hm1 hm2 => by omega⟩

/-- `find?` over `range'` fails exactly when no element of the range
satisfies the predicate. -/
theorem find?_range'_none {p : Nat → Bool} {n s : Nat}
    (h : (List.range' s n).find? p = none) :
    ∀ m, s ≤ m → m < s + n → p m = false := by
  intro m hm1 hm2
  have := List.find?_eq_none.mp h m (List.mem_range'_1.mpr ⟨hm1, hm2⟩)
  simpa using this

/-- A successful `pyFindByte` yields the matching byte, within the adjusted
bounds, and is the first match. -/
theorem pyFindByte_some {b : List Nat} {c : Nat} {s e : Int} {j : Nat}
    (h : pyFindByte b c s e = some j) :
    b.getD j 0 = c ∧ pyAdj b.length s ≤ j ∧ j < pyAdj b.length e ∧
      ∀ m, pyAdj b.length s ≤ m → m < j → b.getD m 0 ≠ c := by
  unfold pyFindByte at h
  obtain ⟨h1, h2, h3, h4⟩ := find?_range'_some h
  refine ⟨by simpa using h1, h2, by omega, fun m hm1 hm2 => ?_⟩
  have := h4 m hm1 hm2
  simpa using this

theorem pyFindByte_none {b : List Nat} {c : Nat} {s e : Int}
    (h : pyFindByte b c s e = none) :
    ∀ m, pyAdj b.length s ≤ m → m < pyAdj b.length e → b.getD m 0 ≠ c := by
  unfold pyFindByte at h
  intro m hm1 hm2
  have := find?_range'_none h m hm1 (by omega)
  simpa using this

/-- `pyAdj` is at most the length. -/
theorem pyAdj_le (len : Nat) (i : Int) : pyAdj len i ≤ len := by
  unfold pyAdj; split_ifs <;> omega

/-- A successful `_read_until` strictly advances the offset and stays within
the buffer. -/
theorem read_until_ok {b : List Nat} {i : Int} {delim : Nat} {s : List Nat}
    {i' : Int} (h : read_until b i delim = .ok (s, i')) :
    i < i' ∧ 0 < i' ∧ i' ≤ (b.length : Int) ∧
      ∃ j : Nat, i' = (j : Int) + 1 ∧ b.getD j 0 = delim ∧
        pyAdj b.length i ≤ j ∧ s = pySlice b i (j : Int) := by
  unfold read_until at h
  cases hf : pyFindByte b delim i (b.length : Int) with
  | none => rw [hf] at h; cases h
  | some j =>
    rw [hf] at h
    obtain ⟨hb, hlo, hhi, _⟩ := pyFindByte_some hf
    cases h
    have hadj : pyAdj b.length (b.length : Int) = b.length := by
      unfold pyAdj; split_ifs <;> omega
    rw [hadj] at hhi
    have hi' : i < (j : Int) + 1 := by
      rcases lt_or_le i 0 with h0 | h0
      · omega
      · have : pyAdj b.length i = min i.toNat b.length := by
          unfold pyAdj; split_ifs <;> omega
        omega
    exact ⟨hi', by omega, by omega, j, rfl, hb, hlo, rfl⟩

/-- The whitespace-skip loop never moves backward. -/
theorem ws_skip_gas_ge (b : List Nat) : ∀ g (i : Int), i ≤ ws_skip_gas b g i := by
  intro g
  induction g with
  | zero => intro i; simp [ws_skip_gas]
  | succ g ih =>
    intro i
    rw [ws_skip_gas]
    split_ifs with h
    · have := ih (i + 1); omega
    · omega

theorem ws_skip_ge (b : List Nat) (i : Int) : i ≤ ws_skip b i :=
  ws_skip_gas_ge b _ i

/-- The whitespace-skip loop never moves past the buffer (beyond its entry
point). -/
theorem ws_skip_gas_le (b : List Nat) :
    ∀ g (i : Int), ws_skip_gas b g i ≤ max i (b.length : Int) := by
  intro g
  induction g with
  | zero => intro i; simp [ws_skip_gas]
  | succ g ih =>
    intro i
    rw [ws_skip_gas]
    split_ifs with h
    · have := ih (i + 1); omega
    · omega

theorem ws_skip_le (b : List Nat) (i : Int) :
    ws_skip b i ≤ max i (b.length : Int) :=
  ws_skip_gas_le b _ i

/-- With enough gas, the whitespace-skip loop stops only at a position that
fails its condition. -/
theorem ws_skip_gas_stop (b : List Nat) :
    ∀ g (i : Int), ((b.length : Int) - i).toNat ≤ g →
      ws_skip_gas b g i < (b.length : Int) →
      isScanWS (pyByte b (ws_skip_gas b g i)) = false := by
  intro g
  induction g with
  | zero => intro i hg hlt; simp only [ws_skip_gas] at hlt ⊢; omega
  | succ g ih =>
    intro i hg
    rw [ws_skip_gas]
    split_ifs with h
    · exact ih (i + 1) (by omega)
    · intro hlt
      cases hq : isScanWS (pyByte b i) with
      | false => rfl
      | true => exact absurd ⟨hlt, hq⟩ h

/-- For a natural entry point, the code's whitespace skip computes the
spec-side `wsEndNat`. -/
theorem ws_skip_gas_nat (b : List Nat) :
    ∀ g (p : Nat), b.length - p ≤ g →
      ws_skip_gas b g (p : Int) = (wsEndNat b p : Int) := by
  intro g
  induction g with
  | zero =>
    intro p hg
    have hp : b.length ≤ p := by omega
    simp only [ws_skip_gas, wsEndNat, List.drop_eq_nil_of_le hp,
      List.takeWhile_nil, List.length_nil, Nat.add_zero]
  | succ g ih =>
    intro p hg
    have hpb : pyByte b (p : Int) = b.getD p 0 := by
      unfold pyByte
      split_ifs with h0
      · omega
      · rw [Int.toNat_natCast]
    rw [ws_skip_gas]
    split_ifs with h
    · obtain ⟨hlt, hws⟩ := h
      have hplt : p < b.length := by exact_mod_cast hlt
      have hd : b.drop p = b.getD p 0 :: b.drop (p + 1) := by
        rw [List.getD_eq_getElem _ _ hplt]
        exact List.drop_eq_getElem_cons hplt
      rw [hpb] at hws
      have hcast : (p : Int) + 1 = ((p + 1 : Nat) : Int) := by push_cast; ring
      rw [hcast, ih (p + 1) (by omega)]
      have hws2 : wsEndNat b p = wsEndNat b (p + 1) := by
        unfold wsEndNat
        rw [hd, List.takeWhile_cons]
        simp only [hws, if_true, List.length_cons]
        omega
      rw [hws2]
    · rcases lt_or_le p b.length with hplt | hple
      · have hws : isScanWS (b.getD p 0) = false := by
          cases hq : isScanWS (b.getD p 0) with
          | false => rfl
          | true => exact absurd ⟨by exact_mod_cast hplt, by rw [hpb]; exact hq⟩ h
        have hd : b.drop p = b.getD p 0 :: b.drop (p + 1) := by
          rw [List.getD_eq_getElem _ _ hplt]
          exact List.drop_eq_getElem_cons hplt
        unfold wsEndNat
        rw [hd, List.takeWhile_cons, hws]
        simp
      · unfold wsEndNat
        rw [List.drop_eq_nil_of_le hple]
        simp

theorem ws_skip_nat (b : List Nat) (p : Nat) :
    ws_skip b (p : Int) = (wsEndNat b p : Int) :=
  ws_skip_gas_nat b _ p (by omega)

/-- Slices are made of bytes of the buffer. -/
theorem pySlice_subset (b : List Nat) (s e : Int) : pySlice b s e ⊆ b := by
  intro x hx
  exact List.drop_subset _ _ (List.take_subset _ _ hx)

/-- Stripping keeps only bytes of the input. -/
theorem stripPyWS_subset (s : List Nat) : stripPyWS s ⊆ s := by
  intro x hx
  unfold stripPyWS at hx
  rw [List.mem_reverse] at hx
  have h1 := (List.dropWhile_sublist (l := (s.dropWhile isPyStripWS).reverse)
    (p := isPyStripWS)).subset hx
  rw [List.mem_reverse] at h1
  exact (List.dropWhile_sublist (p := isPyStripWS)).subset h1


/-- On minus-free bytes, Python `int()` can only produce nonnegative
values. -/
theorem pyIntParse_nonneg {s : List Nat} (hs : ¬ 45 ∈ s) {v : Int}
    (h : pyIntParse s = some v) : 0 ≤ v := by
  unfold pyIntParse at h
  have hs2 : ¬ 45 ∈ stripPyWS s := fun hm => hs (stripPyWS_subset s hm)
  simp only at h
  split_ifs at h with h0 h43 h45
  · rw [Option.map_eq_some'] at h
    obtain ⟨n, h1, h2⟩ := h
    simp only [Int.ofNat_eq_natCast] at h2
    omega
  · exfalso
    rcases hl : stripPyWS s with _ | ⟨c, r⟩
    · exact h0 hl
    · rw [hl] at h45 hs2
      simp only [List.headD_cons] at h45
      exact hs2 (h45 ▸ List.mem_cons_self _ _)
  · rw [Option.map_eq_some'] at h
    obtain ⟨n, h1, h2⟩ := h
    simp only [Int.ofNat_eq_natCast] at h2
    omega

/-- `_parse_int` strictly advances and stays in the buffer. -/
theorem parse_int_ok {b : List Nat} {i : Int} {n : Int} {i' : Int}
    (h : parse_int b i = .ok (n, i')) : i < i' ∧ i' ≤ (b.length : Int) := by
  unfold parse_int at h
  cases hr : read_until b i 59 with
  | error e => rw [hr] at h; cases h
  | ok p =>
    obtain ⟨num, j⟩ := p
    rw [hr] at h
    dsimp only at h
    obtain ⟨h1, h2, h3, -⟩ := read_until_ok hr
    cases hp : pyIntParse num with
    | none => rw [hp] at h; cases h
    | some m => rw [hp] at h; cases h; exact ⟨h1, h3⟩

/-- `_parse_float` strictly advances and stays in the buffer. -/
theorem parse_float_ok {b : List Nat} {i : Int} {raw : List Nat} {i' : Int}
    (h : parse_float b i = .ok (raw, i')) : i < i' ∧ i' ≤ (b.length : Int) := by
  unfold parse_float at h
  cases hr : read_until b i 59 with
  | error e => rw [hr] at h; cases h
  | ok p =>
    obtain ⟨num, j⟩ := p
    rw [hr] at h
    dsimp only at h
    obtain ⟨h1, h2, h3, -⟩ := read_until_ok hr
    split_ifs at h with hok
    cases h
    exact ⟨h1, h3⟩

/-- `_parse_bool` strictly advances and stays in the buffer. -/
theorem parse_bool_ok {b : List Nat} {i : Int} {v : Bool} {i' : Int}
    (h : parse_bool b i = .ok (v, i')) : i < i' ∧ i' ≤ (b.length : Int) := by
  unfold parse_bool at h
  split_ifs at h with hc
  cases h
  rcases hc with hc | hc
  · exact ⟨by omega, pySlice_two_le hc⟩
  · exact ⟨by omega, pySlice_two_le hc⟩

/-- A successful `scan_step` returns a quote position at or after the search
start, within the bound, with the resume offset just past the found `;`. -/
theorem scan_step_some {b : List Nat} {eAdj : Nat} :
    ∀ {g k q : Nat} {resume : Int},
      scan_step b eAdj g k = some (q, resume) →
      k ≤ q ∧ q < eAdj ∧ b.getD q 0 = 34 ∧
        resume = ws_skip b ((q : Int) + 1) + 1 ∧
        pySlice b (ws_skip b ((q : Int) + 1)) (ws_skip b ((q : Int) + 1) + 1) =
          [59] := by
  intro g
  induction g with
  | zero => intro k q resume h; cases h
  | succ g ih =>
    intro k q resume h
    rw [scan_step] at h
    cases hf : (List.range' k (eAdj - k)).find? (fun j => b.getD j 0 == 34) with
    | none => rw [hf] at h; cases h
    | some q0 =>
      rw [hf] at h
      dsimp only at h
      obtain ⟨hp, hlo, hhi, -⟩ := find?_range'_some hf
      have hq0 : b.getD q0 0 = 34 := by simpa using hp
      split_ifs at h with hsc
      · cases h
        exact ⟨hlo, by omega, hq0, rfl, hsc⟩
      · obtain ⟨k1, k2, k3, k4, k5⟩ := ih h
        exact ⟨by omega, k2, k3, k4, k5⟩

/-- A successful `_lenient_scan_close` from a nonnegative start resumes
strictly past the start and inside the buffer. -/
theorem lenient_scan_some {b : List Nat} {start : Int} {sb : List Nat}
    {iNew : Int} (hs : 0 ≤ start)
    (h : lenient_scan_close b start = some (sb, iNew)) :
    start < iNew ∧ iNew ≤ (b.length : Int) := by
  unfold lenient_scan_close at h
  dsimp only at h
  cases hsc : scan_step b (pyAdj b.length (min (b.length : Int) (start + 1000000)))
      (pyAdj b.length (min (b.length : Int) (start + 1000000)) + 1)
      (pyAdj b.length start) with
  | none => rw [hsc] at h; cases h
  | some p =>
    obtain ⟨q, resume⟩ := p
    rw [hsc] at h
    cases h
    obtain ⟨h1, h2, h3, h4, h5⟩ := scan_step_some hsc
    have hws := ws_skip_ge b ((q : Int) + 1)
    have hle := pySlice_one_le h5
    have hstart : pyAdj b.length start ≤ q := h1
    have hq : (start : Int) ≤ (q : Int) := by
      unfold pyAdj at hstart
      split_ifs at hstart with hneg
      · omega
      · -- start is nonnegative; if start exceeded the length the search
        -- range would be empty and the scan could not succeed
        have hb : q < pyAdj b.length (min (b.length : Int) (start + 1000000)) := h2
        have : pyAdj b.length (min (b.length : Int) (start + 1000000)) ≤ b.length :=
          pyAdj_le _ _
        omega
    omega

/-- `_parse_string` never leaves the buffer; with no `-` byte in the input
(hence no negative declared length) it strictly advances. -/
theorem parse_string_ok {lenient : Bool} {b : List Nat} {i : Int}
    {ws : List Warn} {s : List Nat} {i' : Int} {ws' : List Warn}
    (h : parse_string lenient b i ws = .ok (s, i', ws')) :
    i' ≤ (b.length : Int) ∧ (noMinus b → i < i') := by
  unfold parse_string at h
  cases hr : read_until b i 58 with
  | error e => rw [hr] at h; cases h
  | ok p =>
    obtain ⟨lb, i1⟩ := p
    rw [hr] at h
    dsimp only at h
    obtain ⟨h1, h2, h3, j, hj1, hj2, hj3, hj4⟩ := read_until_ok hr
    cases hp : pyIntParse lb with
    | none => rw [hp] at h; cases h
    | some strlen =>
      rw [hp] at h
      dsimp only at h
      have hstrlen : ∀ hnm : noMinus b, 0 ≤ strlen := fun hnm =>
        pyIntParse_nonneg
          (fun hm => hnm (pySlice_subset b i (j : Int) (hj4 ▸ hm))) hp
      split_ifs at h with hq hshort hlen hsucc
      · -- short string, lenient: the bounded scan decides
        cases hsc : lenient_scan_close b (i1 + 1) with
        | none => rw [hsc] at h; cases h
        | some p2 =>
          obtain ⟨sb, iNew⟩ := p2
          rw [hsc] at h
          cases h
          obtain ⟨k1, k2⟩ := lenient_scan_some (by omega) hsc
          exact ⟨k2, fun _ => by omega⟩
      · -- normal slice with terminator found
        cases h
        have hle := pySlice_one_le hsucc.2
        refine ⟨by omega, fun hnm => ?_⟩
        have hws := ws_skip_ge b (i1 + 1 + strlen + 1)
        have h0 := hstrlen hnm
        omega
      all_goals
        cases hsc : lenient_scan_close b (i1 + 1) with
        | none => rw [hsc] at h; cases h
        | some p2 =>
          obtain ⟨sb2, iNew⟩ := p2
          rw [hsc] at h
          obtain ⟨k1, k2⟩ := lenient_scan_some (by omega) hsc
          cases h
          exact ⟨k2, fun _ => by omega⟩

/-- `_parse_key` never leaves the buffer; with no `-` byte it strictly
advances. -/
theorem parse_key_ok {lenient : Bool} {b : List Nat} {i : Int}
    {ws : List Warn} {k : PKey} {i' : Int} {ws' : List Warn}
    (h : parse_key lenient b i ws = .ok (k, i', ws')) :
    i' ≤ (b.length : Int) ∧ (noMinus b → i < i') := by
  unfold parse_key at h
  dsimp only at h
  split_ifs at h with ht1 ht2
  · cases hr : parse_int b (i + 2) with
    | error e => rw [hr] at h; cases h
    | ok p =>
      obtain ⟨n, j⟩ := p
      rw [hr] at h
      cases h
      obtain ⟨k1, k2⟩ := parse_int_ok hr
      exact ⟨k2, fun _ => by omega⟩
  · cases hr : parse_string lenient b (i + 2) ws with
    | error e => rw [hr] at h; cases h
    | ok p =>
      obtain ⟨sv, j, ws2⟩ := p
      rw [hr] at h
      cases h
      obtain ⟨k1, k2⟩ := parse_string_ok hr
      exact ⟨k1, fun hnm => by have := k2 hnm; omega⟩

/-- The item loop only moves the offset forward, given that the key and value
parsers do. -/
theorem parse_items_mono
    {pk : Int → List Warn → Except PErr (PKey × Int × List Warn)}
    {pv : Int → List Warn → PRes (Value × Int × List Warn)}
    (hpk : ∀ {i ws k i' ws'}, pk i ws = .ok (k, i', ws') → i ≤ i')
    (hpv : ∀ {i ws v i' ws'}, pv i ws = .ok (v, i', ws') → i ≤ i') :
    ∀ {count : Nat} {i : Int} {ws : List Warn} {acc : List (PKey × Value)}
      {items : List (PKey × Value)} {i2 : Int} {ws2 : List Warn},
      parse_items pk pv count i ws acc = .ok (items, i2, ws2) → i ≤ i2 := by
  intro count
  induction count with
  | zero =>
    intro i ws acc items i2 ws2 h
    rw [parse_items] at h
    cases h
    omega
  | succ c ih =>
    intro i ws acc items i2 ws2 h
    rw [parse_items] at h
    cases hk : pk i ws with
    | error e => rw [hk] at h; cases h
    | ok p =>
      obtain ⟨k, i1, ws1⟩ := p
      rw [hk] at h
      dsimp only at h
      cases hv : pv i1 ws1 with
      | nofuel => rw [hv] at h; cases h
      | err e => rw [hv] at h; cases h
      | ok q =>
        obtain ⟨v, iv, wsv⟩ := q
        rw [hv] at h
        dsimp only at h
        have := hpk hk
        have := hpv hv
        have := ih h
        omega

/-- Bounds for a successful `a:` tail parse: the returned offset never
exceeds the buffer length; it strictly exceeds the entry offset whenever the
key and value parsers only move forward. -/
theorem parse_array_tail_ok
    {pk : Int → List Warn → Except PErr (PKey × Int × List Warn)}
    {pv : Int → List Warn → PRes (Value × Int × List Warn)} {b : List Nat}
    {i : Int} {ws : List Warn} {v : Value} {i' : Int} {ws' : List Warn}
    (h : parse_array_tail pk pv b i ws = .ok (v, i', ws')) :
    i' ≤ (b.length : Int) ∧
      ((∀ {j wsj k j' wsj'}, pk j wsj = .ok (k, j', wsj') → j ≤ j') →
       (∀ {j wsj vv j' wsj'}, pv j wsj = .ok (vv, j', wsj') → j ≤ j') →
       i < i') := by
  unfold parse_array_tail at h
  cases hr : read_until b i 58 with
  | error e => rw [hr] at h; cases h
  | ok p =>
    obtain ⟨countBytes, i1⟩ := p
    rw [hr] at h
    dsimp only at h
    obtain ⟨r1, r2, r3, -⟩ := read_until_ok hr
    cases hp : pyIntParse countBytes with
    | none => rw [hp] at h; cases h
    | some count =>
      rw [hp] at h
      dsimp only at h
      split_ifs at h with hbrace
      cases hits : parse_items pk pv count.toNat (i1 + 1) ws [] with
      | nofuel => rw [hits] at h; cases h
      | err e => rw [hits] at h; cases h
      | ok q =>
        obtain ⟨items, i2, ws2⟩ := q
        rw [hits] at h
        dsimp only at h
        split_ifs at h with hclose hlist
        all_goals {
          cases h
          have hle := pySlice_one_le (not_not.mp hclose)
          refine ⟨by omega, fun hpk hpv => ?_⟩
          have hmono := parse_items_mono hpk hpv hits
          omega
        }

/-- Bounds for one dispatch of the shared parser body: the returned offset
never exceeds the buffer length; with no `-` byte in the input it strictly
exceeds the entry offset, given that the deeper parser (when present) does
the same. -/
theorem parse_value_body_ok {lenient : Bool} {b : List Nat}
    {deeper : Option (Int → List Warn → PRes (Value × Int × List Warn))}
    {i : Int} {ws : List Warn} {v : Value} {i' : Int} {ws' : List Warn}
    (hdeep : ∀ {pv : Int → List Warn → PRes (Value × Int × List Warn)}
      {j : Int} {wsj : List Warn} {vv : Value} {j' : Int} {wsj' : List Warn},
      deeper = some pv → pv j wsj = .ok (vv, j', wsj') → noMinus b → j < j')
    (h : parse_value_body lenient b deeper i ws = .ok (v, i', ws')) :
    i' ≤ (b.length : Int) ∧ (noMinus b → i < i') := by
  unfold parse_value_body at h
  dsimp only at h
  split_ifs at h with h1 h2 h3 h4 h5 h6
  · cases hr : parse_string lenient b (i + 2) ws with
    | error e => rw [hr] at h; cases h
    | ok p =>
      obtain ⟨sv, j, ws2⟩ := p
      rw [hr] at h
      cases h
      obtain ⟨k1, k2⟩ := parse_string_ok hr
      exact ⟨k1, fun hnm => by have := k2 hnm; omega⟩
  · cases hr : parse_int b (i + 2) with
    | error e => rw [hr] at h; cases h
    | ok p =>
      obtain ⟨n, j⟩ := p
      rw [hr] at h
      cases h
      obtain ⟨k1, k2⟩ := parse_int_ok hr
      exact ⟨k2, fun _ => by omega⟩
  · cases hr : parse_float b (i + 2) with
    | error e => rw [hr] at h; cases h
    | ok p =>
      obtain ⟨raw, j⟩ := p
      rw [hr] at h
      cases h
      obtain ⟨k1, k2⟩ := parse_float_ok hr
      exact ⟨k2, fun _ => by omega⟩
  · cases hr : parse_bool b (i + 2) with
    | error e => rw [hr] at h; cases h
    | ok p =>
      obtain ⟨bv, j⟩ := p
      rw [hr] at h
      cases h
      obtain ⟨k1, k2⟩ := parse_bool_ok hr
      exact ⟨k2, fun _ => by omega⟩
  · cases h
    exact ⟨pySlice_two_le h5, fun _ => by omega⟩
  · cases deeper with
    | none => cases h
    | some pv =>
      dsimp only at h
      obtain ⟨k1, k2⟩ := parse_array_tail_ok h
      refine ⟨k1, fun hnm => ?_⟩
      have := k2 (fun hk => le_of_lt ((parse_key_ok hk).2 hnm))
        (fun hv => le_of_lt (hdeep rfl hv hnm))
      omega

/-- Bounds for every successful value parse: the returned offset never
exceeds the buffer length, and — provided the input contains no `-` byte, so
no negative declared string length can pull the cursor backward — it strictly
exceeds the entry offset. -/
theorem parse_value_ok_bounds {lenient : Bool} {b : List Nat} :
    ∀ {fuel : Nat} {i : Int} {ws : List Warn} {v : Value} {i' : Int}
      {ws' : List Warn},
      parse_value lenient b fuel i ws = .ok (v, i', ws') →
      i' ≤ (b.length : Int) ∧ (noMinus b → i < i') := by
  intro fuel
  induction fuel with
  | zero =>
    intro i ws v i' ws' h
    rw [parse_value] at h
    exact parse_value_body_ok (fun hs => by cases hs) h
  | succ fuel' ih =>
    intro i ws v i' ws' h
    rw [parse_value] at h
    refine parse_value_body_ok ?_ h
    intro pv j wsj vv j' wsj' hs hok hnm
    cases hs
    exact (ih hok).2 hnm

/-- `firstViable` on an empty range. -/
theorem firstViable_empty {b : List Nat} {k e : Nat} (h : e ≤ k) :
    firstViable b k e = none := by
  unfold firstViable
  rw [(by omega : e - k = 0)]
  rfl

/-- One step of `firstViable`. -/
theorem firstViable_step {b : List Nat} {k e : Nat} (h : k < e) :
    firstViable b k e =
      if viableClose b k then some k else firstViable b (k + 1) e := by
  unfold firstViable
  rw [(by omega : e - k = (e - (k + 1)) + 1), List.range'_succ, List.find?_cons]
  by_cases hv : viableClose b k
  · simp [hv]
  · simp [hv]

/-- Positions known not to be viable can be skipped. -/
theorem firstViable_skip {b : List Nat} :
    ∀ (n : Nat) {k q e : Nat}, q - k ≤ n → k ≤ q →
      (∀ m, k ≤ m → m < q → ¬ viableClose b m) →
      firstViable b k e = firstViable b q e := by
  intro n
  induction n with
  | zero =>
    intro k q e h1 h2 _
    have hkq : k = q := by omega
    subst hkq
    rfl
  | succ n ih =>
    intro k q e h1 h2 hnv
    rcases Nat.eq_or_lt_of_le h2 with rfl | hlt
    · rfl
    · rcases le_or_lt e k with he | he
      · rw [firstViable_empty he, firstViable_empty (by omega)]
      · rw [firstViable_step he, if_neg (hnv k (le_refl k) hlt)]
        exact ih (by omega) (by omega) (fun m hm1 hm2 => hnv m (by omega) hm2)

/-- The `;`-after-whitespace check performed by the scan is exactly the
spec-side viability of a quote position. -/
theorem scan_check_iff {b : List Nat} {q : Nat} (hq : b.getD q 0 = 34) :
    (pySlice b (ws_skip b ((q : Int) + 1)) (ws_skip b ((q : Int) + 1) + 1) =
      [59]) ↔ viableClose b q := by
  have hcast : (q : Int) + 1 = ((q + 1 : Nat) : Int) := by push_cast; ring
  rw [hcast, ws_skip_nat]
  rw [pySlice_one_nat (wsEndNat b (q + 1))]
  unfold viableClose
  constructor
  · rintro ⟨a1, a2⟩; exact ⟨hq, a1, a2⟩
  · rintro ⟨-, a1, a2⟩; exact ⟨a1, a2⟩

/-- The scan loop computes the earliest viable quote position in the
remaining window, with the resume offset just past the `;`. -/
theorem scan_step_spec {b : List Nat} {eAdj : Nat} :
    ∀ {g k : Nat}, eAdj ≤ g + k →
      scan_step b eAdj g k =
        (firstViable b k eAdj).map
          (fun q => (q, ((wsEndNat b (q + 1) : Int) + 1))) := by
  intro g
  induction g with
  | zero =>
    intro k hg
    rw [scan_step, firstViable_empty (by omega)]
    rfl
  | succ g ih =>
    intro k hg
    rw [scan_step]
    cases hf : (List.range' k (eAdj - k)).find? (fun j => b.getD j 0 == 34) with
    | none =>
      have hnone := find?_range'_none hf
      have : firstViable b k eAdj = none := by
        unfold firstViable
        rw [List.find?_eq_none]
        intro a ha
        rw [List.mem_range'_1] at ha
        have h34 := hnone a ha.1 (by omega)
        simp only [decide_eq_true_eq]
        intro hv
        rw [hv.1] at h34
        simp at h34
      rw [this]
      rfl
    | some q =>
      obtain ⟨hp, hlo, hhi, hfirst⟩ := find?_range'_some hf
      have hq34 : b.getD q 0 = 34 := by simpa using hp
      have hskip : firstViable b k eAdj = firstViable b q eAdj := by
        refine firstViable_skip q (by omega) hlo (fun m h1 h2 => fun hv => ?_)
        have h34 := hfirst m h1 h2
        rw [hv.1] at h34
        simp at h34
      have hqe : q < eAdj := by omega
      rw [hskip, firstViable_step hqe]
      dsimp only
      by_cases hv : viableClose b q
      · rw [if_pos ((scan_check_iff hq34).mpr hv), if_pos hv]
        have hcast : (q : Int) + 1 = ((q + 1 : Nat) : Int) := by push_cast; ring
        rw [hcast, ws_skip_nat]
        rfl
      · rw [if_neg (fun hc => hv ((scan_check_iff hq34).mp hc)), if_neg hv]
        exact ih (by omega)

/-- Full characterization of `_lenient_scan_close` from a natural start
offset: it finds the earliest quote position, within the one-million-byte
lookahead bound, that is followed by optional `b' \t\r\n'` whitespace and a
`;`; the payload is the span from the start to that quote and parsing resumes
just past the `;`.  With no such position, it reports no viable closing. -/
theorem lenient_scan_close_spec (b : List Nat) (start : Nat) :
    lenient_scan_close b (start : Int) =
      match firstViable b start (min b.length (start + 1000000)) with
      | none => none
      | some q =>
        some ((b.drop start).take (q - start), ((wsEndNat b (q + 1) : Int) + 1)) := by
  unfold lenient_scan_close
  dsimp only
  have hE : pyAdj b.length (min (b.length : Int) ((start : Int) + 1000000)) =
      min b.length (start + 1000000) := by
    unfold pyAdj; split_ifs <;> omega
  have hK : pyAdj b.length (start : Int) = min start b.length := by
    unfold pyAdj; split_ifs <;> omega
  rw [hE, hK]
  rcases le_or_lt (start : Nat) b.length with hsl | hsl
  · rw [min_eq_left hsl]
    rw [scan_step_spec (by omega)]
    cases hfv : firstViable b start (min b.length (start + 1000000)) with
    | none => rfl
    | some q =>
      dsimp only [Option.map]
      have hq := find?_range'_some (p := fun q => decide (viableClose b q)) (by
        unfold firstViable at hfv
        exact hfv)
      obtain ⟨-, hlo, hhi, -⟩ := hq
      have hslice : pySlice b (start : Int) (q : Int) = (b.drop start).take (q - start) := by
        unfold pySlice
        rw [hK]
        have : pyAdj b.length (q : Int) = min q b.length := by
          unfold pyAdj; split_ifs <;> omega
        rw [this, min_eq_left hsl, min_eq_left (by omega : q ≤ b.length)]
      rw [hslice]
  · -- the start lies past the buffer: both sides are empty searches
    rw [min_eq_right (by omega : b.length ≤ start)]
    rw [scan_step_spec (by omega)]
    have h1 : firstViable b b.length (min b.length (start + 1000000)) = none :=
      firstViable_empty (by omega)
    have h2 : firstViable b start (min b.length (start + 1000000)) = none :=
      firstViable_empty (by omega)
    rw [h1, h2]
    rfl

/-- The nested candidate loop of `_try_blocks` equals a first-success search
over the ordered candidate list of its bracket kind. -/
theorem try_blocks_go_spec (jd : List Char → Option (List Char)) (o c : Char)
    (s : List Char) :
    ∀ starts : List Nat,
      try_blocks_go jd o c s starts =
        (starts.filterMap (fun st => (find_balance o c (s.drop st) 0 0).map
          (fun n => (s.drop st).take n))).findSome? (attemptCandidate jd) := by
  intro starts
  induction starts with
  | nil => rfl
  | cons st rest ih =>
    rw [try_blocks_go, List.filterMap_cons]
    cases hb : find_balance o c (s.drop st) 0 0 with
    | none => exact ih
    | some n =>
      dsimp only [Option.map]
      rw [List.findSome?_cons]
      unfold attemptCandidate
      cases hjd : jd ((s.drop st).take n) with
      | some out => rfl
      | none =>
        cases hl : loose_json_fixes jd ((s.drop st).take n) with
        | some rep => rfl
        | none => exact ih

/-- First-success search distributes over list append. -/
theorem findSome?_append_match {α β : Type} (f : α → Option β) :
    ∀ (l1 l2 : List α),
      (l1 ++ l2).findSome? f =
        (match l1.findSome? f with
         | some r => some r
         | none => l2.findSome? f) := by
  intro l1 l2
  induction l1 with
  | nil => rfl
  | cons a l ih =>
    rw [List.cons_append, List.findSome?_cons, List.findSome?_cons]
    cases f a with
    | some r => rfl
    | none => exact ih

/-- `find?` distributes over list append. -/
theorem find?_append_match {α : Type} (p : α → Bool) :
    ∀ (l1 l2 : List α),
      (l1 ++ l2).find? p =
        (match l1.find? p with
         | some x => some x
         | none => l2.find? p) := by
  intro l1 l2
  induction l1 with
  | nil => rfl
  | cons a l ih =>
    rw [List.cons_append, List.find?_cons, List.find?_cons]
    cases p a with
    | true => rfl
    | false => exact ih

/-- Overwriting an existing key does not change the key sequence. -/
theorem dictInsert_keys (d : List (PKey × Value)) (k : PKey) (v : Value) :
    (dictInsert d k v).map Prod.fst =
      if (d.map Prod.fst).contains k then d.map Prod.fst
      else d.map Prod.fst ++ [k] := by
  unfold dictInsert
  have hany : d.any (fun kv => kv.1 == k) = (d.map Prod.fst).contains k := by
    induction d with
    | nil => rfl
    | cons a l ih =>
      rw [List.any_cons, List.map_cons, List.contains_cons]
      rw [ih]
      have : (a.1 == k) = (k == a.1) := by
        rcases instDecidableEqPKey a.1 k with h | h
        · simp [h, Ne.symm h]
        · simp [h]
      rw [this]
  rw [hany]
  split_ifs with hc
  · rw [List.map_map]
    congr 1
    funext kv
    simp only [Function.comp_apply]
    split_ifs <;> rfl
  · rw [List.map_append]
    rfl

/-- Python-dict insertion semantics for lookup: the inserted key now maps to
the new value; every other key is untouched. -/
theorem dictInsert_lookup (d : List (PKey × Value)) (k : PKey) (v : Value)
    (k' : PKey) :
    lookupKey (dictInsert d k v) k' =
      if k' = k then some v else lookupKey d k' := by
  unfold dictInsert lookupKey
  have hfind : ∀ l : List (PKey × Value),
      (l.map (fun kv => if kv.1 == k then (kv.1, v) else kv)).find?
        (fun kv => kv.1 == k') =
      (l.find? (fun kv => kv.1 == k')).map
        (fun kv => if kv.1 == k then (kv.1, v) else kv) := by
    intro l
    induction l with
    | nil => rfl
    | cons a l ih =>
      rw [List.map_cons, List.find?_cons, List.find?_cons]
      have hfst : ((if a.1 == k then (a.1, v) else a).1 == k') = (a.1 == k') := by
        split_ifs <;> rfl
      rw [hfst]
      cases ha : (a.1 == k') with
      | true => rfl
      | false => exact ih
  split_ifs with hany hk hk
  · -- key present, looked-up key equals it
    subst hk
    rw [hfind]
    have hsome : (d.find? (fun kv => kv.1 == k')).isSome := by
      rw [List.find?_isSome]
      exact List.any_eq_true.mp hany
    obtain ⟨kv, hkv⟩ := Option.isSome_iff_exists.mp hsome
    have hkvk := List.find?_some hkv
    rw [hkv]
    simp only [Option.map_some']
    simp [hkvk]
  · -- key present, other key
    rw [hfind]
    cases hf : d.find? (fun kv => kv.1 == k') with
    | none => rfl
    | some kv =>
      have hkvk := List.find?_some hf
      have hne : (kv.1 == k) = false := by
        rw [beq_eq_false_iff_ne]
        have : kv.1 = k' := beq_iff_eq.mp hkvk
        rw [this]
        exact hk
      simp only [Option.map_some']
      simp [hne]
  · -- key absent, looked-up key equals it
    subst hk
    rw [find?_append_match]
    have hanyf : d.any (fun kv => kv.1 == k') = false := by
      cases hh : d.any (fun kv => kv.1 == k')
      · rfl
      · exact absurd hh hany
    have hdnone : d.find? (fun kv => kv.1 == k') = none := by
      rw [List.find?_eq_none]
      intro x hx hpx
      exact (List.any_eq_false.mp hanyf x hx) hpx
    rw [hdnone]
    simp
  · -- key absent, other key
    rw [find?_append_match]
    cases hf : d.find? (fun kv => kv.1 == k') with
    | some kv => rfl
    | none =>
      have hkk : (k == k') = false := by
        rw [beq_eq_false_iff_ne]
        exact fun hh => hk hh.symm
      simp [List.find?, hkk]

/-- One step of `dedupNewKeys`. -/
theorem dedupNewKeys_cons (seen : List PKey) (k : PKey) (ks : List PKey) :
    dedupNewKeys seen (k :: ks) =
      if seen.contains k then dedupNewKeys seen ks
      else k :: dedupNewKeys (seen ++ [k]) ks := rfl

/-- The fold of the `a:` branch keeps keys in order of first occurrence. -/
theorem dictFold_keys_from (items : List (PKey × Value)) :
    ∀ d : List (PKey × Value),
      ((items.foldl (fun d kv => dictInsert d kv.1 kv.2) d).map Prod.fst) =
        d.map Prod.fst ++ dedupNewKeys (d.map Prod.fst) (items.map Prod.fst) := by
  induction items with
  | nil => intro d; simp [dedupNewKeys]
  | cons a its ih =>
    intro d
    rw [List.foldl_cons, ih, dictInsert_keys, List.map_cons, dedupNewKeys_cons]
    cases hc : (d.map Prod.fst).contains a.1 with
    | true => simp
    | false => simp

/-- The fold of the `a:` branch realizes last-write-wins lookup. -/
theorem dictFold_lookup_from (items : List (PKey × Value)) :
    ∀ (d : List (PKey × Value)) (k : PKey),
      lookupKey (items.foldl (fun d kv => dictInsert d kv.1 kv.2) d) k =
        (match lastAssoc items k with
         | some v => some v
         | none => lookupKey d k) := by
  induction items with
  | nil => intro d k; rfl
  | cons a its ih =>
    intro d k
    rw [List.foldl_cons, ih]
    have hlast : lastAssoc (a :: its) k =
        (match lastAssoc its k with
         | some v => some v
         | none => if a.1 == k then some a.2 else none) := by
      unfold lastAssoc
      rw [List.reverse_cons, find?_append_match]
      cases hf : its.reverse.find? (fun kv => kv.1 == k) with
      | some kv => rfl
      | none =>
        dsimp only
        rw [List.find?_cons]
        cases ha : (a.1 == k) with
        | true => rfl
        | false => rfl
    rw [hlast]
    cases hl : lastAssoc its k with
    | some v => rfl
    | none =>
      dsimp only
      rw [dictInsert_lookup]
      cases ha : (a.1 == k) with
      | true =>
        have ha2 : a.1 = k := beq_iff_eq.mp ha
        simp [ha2]
      | false =>
        have hne : ¬ k = a.1 := fun hh => (beq_eq_false_iff_ne.mp ha) hh.symm
        simp [hne]

/-- The two fold lemmas specialized to `dictFold`. -/
theorem dictFold_keys (items : List (PKey × Value)) :
    (dictFold items).map Prod.fst = dedupNewKeys [] (items.map Prod.fst) := by
  unfold dictFold
  rw [dictFold_keys_from items []]
  rfl

theorem dictFold_lookup (items : List (PKey × Value)) (k : PKey) :
    lookupKey (dictFold items) k = lastAssoc items k := by
  unfold dictFold
  rw [dictFold_lookup_from items [] k]
  cases hl : lastAssoc items k with
  | some v => rfl
  | none => rfl

/- ===================== Cleanup (C6) machinery ===================== -/

/-- `Char.ofNat` round-trips through `toNat` on valid (BMP-low) codepoints. -/
theorem Char_toNat_ofNat {n : Nat} (h : n < 55296) : (Char.ofNat n).toNat = n := by
  unfold Char.ofNat
  split_ifs with hv
  · rfl
  · exact absurd (Or.inl (by exact_mod_cast h)) hv

/-- Every character produced by the digit accumulator is an ASCII digit. -/
theorem natDigitsGo_mem :
    ∀ (g n : Nat) (acc : List Char),
      (∀ c ∈ acc, 48 ≤ c.toNat ∧ c.toNat ≤ 57) →
      ∀ c ∈ natDigitsGo g n acc, 48 ≤ c.toNat ∧ c.toNat ≤ 57 := by
  intro g
  induction g with
  | zero => intro n acc hacc; exact hacc
  | succ g ih =>
    intro n acc hacc c hc
    rw [natDigitsGo] at hc
    split_ifs at hc with hn
    · rcases List.mem_cons.mp hc with rfl | hmem
      · rw [Char_toNat_ofNat (by omega)]; omega
      · exact hacc _ hmem
    · refine ih (n / 10) _ ?_ c hc
      intro d hd
      rcases List.mem_cons.mp hd with rfl | hmem
      · have hlt : n % 10 < 10 := Nat.mod_lt n (by omega)
        rw [Char_toNat_ofNat (by omega)]
        omega
      · exact hacc _ hmem

theorem natDigits_mem (n : Nat) :
    ∀ c ∈ natDigits n, 48 ≤ c.toNat ∧ c.toNat ≤ 57 :=
  natDigitsGo_mem (n + 1) n [] (by intro c hc; cases hc)

/-- Every character of a placeholder `@@S{k}@@` is `@`, `S` or a digit. -/
theorem ph_mem (k : Nat) :
    ∀ c ∈ ph k, c.toNat = 64 ∨ c.toNat = 83 ∨ (48 ≤ c.toNat ∧ c.toNat ≤ 57) := by
  intro c hc
  rw [ph] at hc
  rcases List.mem_cons.mp hc with rfl | hc
  · left; rfl
  rcases List.mem_cons.mp hc with rfl | hc
  · left; rfl
  rcases List.mem_cons.mp hc with rfl | hc
  · right; left; rfl
  rcases List.mem_append.mp hc with hc | hc
  · exact Or.inr (Or.inr (natDigits_mem k c hc))
  rcases List.mem_cons.mp hc with rfl | hc
  · left; rfl
  rcases List.mem_cons.mp hc with rfl | hc
  · left; rfl
  cases hc

theorem ph_ne_nil (k : Nat) : ph k ≠ [] := by
  rw [ph]
  intro h
  cases h

/-- Placeholder characters are not Unicode whitespace. -/
theorem pyStrWS_ph_false {c : Char}
    (h : c.toNat = 64 ∨ c.toNat = 83 ∨ (48 ≤ c.toNat ∧ c.toNat ≤ 57)) :
    pyStrWS c = false := by
  simp only [pyStrWS, Bool.or_eq_false_iff, beq_eq_false_iff_ne, ne_eq,
    Bool.and_eq_false_iff, decide_eq_false_iff_not, not_le]
  omega

/-- Placeholder characters are not horizontal whitespace. -/
theorem isHWS_ph_false {c : Char}
    (h : c.toNat = 64 ∨ c.toNat = 83 ∨ (48 ≤ c.toNat ∧ c.toNat ≤ 57)) :
    isHWS c = false := by
  simp only [isHWS, Bool.or_eq_false_iff, beq_eq_false_iff_ne, ne_eq]
  omega

/-- Placeholder characters differ from the four anchor characters. -/
theorem ph_char_ne {c a : Char}
    (h : c.toNat = 64 ∨ c.toNat = 83 ∨ (48 ≤ c.toNat ∧ c.toNat ≤ 57))
    (ha : a.toNat = 58 ∨ a.toNat = 59 ∨ a.toNat = 123 ∨ a.toNat = 125) :
    c ≠ a := by
  intro he
  subst he
  omega

theorem lbrace_toNat : lbrace.toNat = 123 := by decide

theorem rbrace_toNat : rbrace.toNat = 125 := by decide

/-- The combined side condition of the anchor substitutions for placeholder
characters. -/
theorem ph_shell_cond (k : Nat) (a : Char)
    (ha : a.toNat = 58 ∨ a.toNat = 59 ∨ a.toNat = 123 ∨ a.toNat = 125) :
    ∀ ch ∈ ph k, pyStrWS ch = false ∧ ch ≠ a :=
  fun ch hch => ⟨pyStrWS_ph_false (ph_mem k ch hch), ph_char_ne (ph_mem k ch hch) ha⟩

/-- A run of non-horizontal-whitespace characters passes through the collapse
pass unchanged at the front. -/
theorem collapse_hws_append_of_head :
    ∀ (P : List Char), P ≠ [] → (∀ c ∈ P, isHWS c = false) →
      ∀ y, collapse_hws (P ++ y) = P ++ collapse_hws y := by
  intro P
  induction P with
  | nil => intro hP; exact absurd rfl hP
  | cons p P' ih =>
    intro _ h y
    have hp : isHWS p = false := h p (by simp)
    cases P' with
    | nil =>
      cases y with
      | nil => simp [collapse_hws, hp]
      | cons y0 y' =>
        simp only [List.cons_append, List.nil_append]
        rw [collapse_hws, if_neg (by simp [hp]), if_neg (by simp [hp])]
    | cons p2 P'' =>
      have hIH := ih (by simp) (fun c hc => h c (List.mem_cons_of_mem p hc)) y
      simp only [List.cons_append] at hIH ⊢
      rw [collapse_hws, if_neg (by simp [hp]), if_neg (by simp [hp]), hIH]

/-- The collapse pass distributes over a placeholder-like separator: a
nonempty run with no horizontal whitespace splits the pass into independent
passes over the two sides. -/
theorem collapse_hws_distrib (P : List Char) (hP : P ≠ [])
    (h : ∀ c ∈ P, isHWS c = false) :
    ∀ (x y : List Char),
      collapse_hws (x ++ P ++ y) = collapse_hws x ++ P ++ collapse_hws y := by
  intro x
  induction x with
  | nil =>
    intro y
    have e : collapse_hws ([] : List Char) = [] := rfl
    simp only [List.nil_append, e]
    exact collapse_hws_append_of_head P hP h y
  | cons c x' ih =>
    intro y
    cases x' with
    | nil =>
      obtain ⟨p, P', rfl⟩ : ∃ p P', P = p :: P' := by
        cases P with
        | nil => exact absurd rfl hP
        | cons a b => exact ⟨a, b, rfl⟩
      have hp : isHWS p = false := h p (by simp)
      simp only [List.cons_append, List.nil_append]
      have hstep : collapse_hws (c :: p :: (P' ++ y)) =
          if isHWS c = true ∧ isHWS p = true then collapse_hws (p :: (P' ++ y))
          else (if isHWS c = true then ' ' else c) :: collapse_hws (p :: (P' ++ y)) :=
        rfl
      rw [hstep, if_neg (by simp [hp])]
      have hfront := collapse_hws_append_of_head (p :: P') hP h y
      simp only [List.cons_append] at hfront
      rw [hfront]
      by_cases hc : isHWS c = true
      · simp [collapse_hws, hc]
      · simp [collapse_hws, hc]
    | cons d x'' =>
      have hIH := ih y
      simp only [List.cons_append] at hIH ⊢
      by_cases hcd : isHWS c = true ∧ isHWS d = true
      · conv_rhs => rw [collapse_hws, if_pos hcd]
        rw [collapse_hws, if_pos hcd, hIH]
      · conv_rhs => rw [collapse_hws, if_neg hcd]
        rw [collapse_hws, if_neg hcd, hIH]
        simp

/-- Whitespace skipping stops at a nonempty non-whitespace run: `dropWhile`
passes the run and the rest through unchanged beyond the first segment. -/
theorem dropWhile_append_head_false :
    ∀ (x : List Char) (P y : List Char), P ≠ [] →
      (∀ c ∈ P, pyStrWS c = false) →
      (x ++ P ++ y).dropWhile pyStrWS = x.dropWhile pyStrWS ++ P ++ y := by
  intro x P y hP h
  induction x with
  | nil =>
    obtain ⟨p, P', rfl⟩ : ∃ p P', P = p :: P' := by
      cases P with
      | nil => exact absurd rfl hP
      | cons a b => exact ⟨a, b, rfl⟩
    simp [List.dropWhile_cons, h p (by simp)]
  | cons a x' ih =>
    cases ha : pyStrWS a with
    | true => simpa [List.dropWhile_cons, ha] using ih
    | false => simp [List.dropWhile_cons, ha]

/-- `dropWhile` never lengthens a list. -/
theorem length_dropWhile_le (p : Char → Bool) (l : List Char) :
    (l.dropWhile p).length ≤ l.length := by
  induction l with
  | nil => simp
  | cons a r ih =>
    rw [List.dropWhile_cons]
    split_ifs
    · simp only [List.length_cons]; omega
    · simp

/-- One-step unfolding of the gas-bounded anchor substitution. -/
theorem sub_around_gas_step (c a : Char) (g : Nat) (r : List Char) :
    sub_around_gas c (g + 1) (a :: r) =
      if a = c then c :: sub_around_gas c g (r.dropWhile pyStrWS)
      else if pyStrWS a = true then
        match (a :: r).dropWhile pyStrWS with
        | b :: rest =>
          if b = c then c :: sub_around_gas c g (rest.dropWhile pyStrWS)
          else a :: sub_around_gas c g r
        | [] => a :: sub_around_gas c g r
      else a :: sub_around_gas c g r := rfl

/-- The gas bound of the anchor substitution is irrelevant once it dominates
the input length. -/
theorem sub_around_gas_stable (c : Char) :
    ∀ (n : Nat) (l : List Char), l.length ≤ n →
      ∀ (g g' : Nat), l.length ≤ g → l.length ≤ g' →
        sub_around_gas c g l = sub_around_gas c g' l := by
  intro n
  induction n with
  | zero =>
    intro l hl g g' _ _
    have hl0 : l = [] := by
      cases l with
      | nil => rfl
      | cons a r => simp at hl
    subst hl0
    cases g <;> cases g' <;> rfl
  | succ n ih =>
    intro l hl g g' hg hg'
    cases l with
    | nil => cases g <;> cases g' <;> rfl
    | cons a r =>
      obtain ⟨g1, rfl⟩ : ∃ m, g = m + 1 := by
        cases g with
        | zero => simp at hg
        | succ m => exact ⟨m, rfl⟩
      obtain ⟨g2, rfl⟩ : ∃ m, g' = m + 1 := by
        cases g' with
        | zero => simp at hg'
        | succ m => exact ⟨m, rfl⟩
      simp only [List.length_cons] at hl hg hg'
      rw [sub_around_gas_step, sub_around_gas_step]
      by_cases hac : a = c
      · rw [if_pos hac, if_pos hac]
        have hlen : (r.dropWhile pyStrWS).length ≤ r.length :=
          length_dropWhile_le _ _
        rw [ih (r.dropWhile pyStrWS) (by omega) g1 g2 (by omega) (by omega)]
      · rw [if_neg hac, if_neg hac]
        by_cases haw : pyStrWS a = true
        · rw [if_pos haw, if_pos haw]
          have hda : (a :: r).dropWhile pyStrWS = r.dropWhile pyStrWS := by
            simp [List.dropWhile_cons, haw]
          rw [hda]
          have hlen : (r.dropWhile pyStrWS).length ≤ r.length :=
            length_dropWhile_le _ _
          cases hdr : r.dropWhile pyStrWS with
          | nil =>
            dsimp only
            rw [ih r (by omega) g1 g2 (by omega) (by omega)]
          | cons b rest =>
            dsimp only
            have hrl : rest.length < r.length := by
              rw [hdr] at hlen
              simp at hlen
              omega
            by_cases hbc : b = c
            · rw [if_pos hbc, if_pos hbc]
              have hlen2 : (rest.dropWhile pyStrWS).length ≤ rest.length :=
                length_dropWhile_le _ _
              rw [ih (rest.dropWhile pyStrWS) (by omega) g1 g2 (by omega) (by omega)]
            · rw [if_neg hbc, if_neg hbc]
              rw [ih r (by omega) g1 g2 (by omega) (by omega)]
        · rw [if_neg haw, if_neg haw]
          rw [ih r (by omega) g1 g2 (by omega) (by omega)]

theorem sub_around_gas_eq (c : Char) (g : Nat) (l : List Char)
    (hg : l.length ≤ g) : sub_around_gas c g l = sub_around c l := by
  unfold sub_around
  exact sub_around_gas_stable c l.length l le_rfl g (l.length + 1) hg (by omega)

/-- One-step unfolding of the anchor substitution on a nonempty input. -/
theorem sub_around_cons (c a : Char) (r : List Char) :
    sub_around c (a :: r) =
      if a = c then c :: sub_around c (r.dropWhile pyStrWS)
      else if pyStrWS a = true then
        match (a :: r).dropWhile pyStrWS with
        | b :: rest =>
          if b = c then c :: sub_around c (rest.dropWhile pyStrWS)
          else a :: sub_around c r
        | [] => a :: sub_around c r
      else a :: sub_around c r := by
  have h1 : sub_around c (a :: r) = sub_around_gas c (r.length + 1 + 1) (a :: r) := rfl
  rw [h1, sub_around_gas_step]
  by_cases hac : a = c
  · rw [if_pos hac, if_pos hac]
    rw [sub_around_gas_eq c (r.length + 1) (r.dropWhile pyStrWS)
      (le_trans (length_dropWhile_le _ _) (by omega))]
  · rw [if_neg hac, if_neg hac]
    by_cases haw : pyStrWS a = true
    · rw [if_pos haw, if_pos haw]
      have hda : (a :: r).dropWhile pyStrWS = r.dropWhile pyStrWS := by
        simp [List.dropWhile_cons, haw]
      rw [hda]
      have hlen : (r.dropWhile pyStrWS).length ≤ r.length :=
        length_dropWhile_le _ _
      cases hdr : r.dropWhile pyStrWS with
      | nil =>
        dsimp only
        rw [sub_around_gas_eq c (r.length + 1) r (by omega)]
      | cons b rest =>
        dsimp only
        have hrl : rest.length < r.length := by
          rw [hdr] at hlen
          simp at hlen
          omega
        by_cases hbc : b = c
        · rw [if_pos hbc, if_pos hbc]
          rw [sub_around_gas_eq c (r.length + 1) (rest.dropWhile pyStrWS)
            (le_trans (length_dropWhile_le _ _) (by omega))]
        · rw [if_neg hbc, if_neg hbc]
          rw [sub_around_gas_eq c (r.length + 1) r (by omega)]
    · rw [if_neg haw, if_neg haw]
      rw [sub_around_gas_eq c (r.length + 1) r (by omega)]

/-- A nonempty run containing no whitespace and no anchor characters passes
through the anchor substitution unchanged at the front. -/
theorem sub_around_append_of_head (c : Char) :
    ∀ (P : List Char), P ≠ [] →
      (∀ ch ∈ P, pyStrWS ch = false ∧ ch ≠ c) →
      ∀ y, sub_around c (P ++ y) = P ++ sub_around c y := by
  intro P
  induction P with
  | nil => intro hP; exact absurd rfl hP
  | cons p P' ih =>
    intro _ h y
    have hp := h p (by simp)
    simp only [List.cons_append]
    rw [sub_around_cons, if_neg hp.2, if_neg (by simp [hp.1])]
    cases P' with
    | nil => simp
    | cons q Q =>
      rw [ih (by simp) (fun ch hch => h ch (List.mem_cons_of_mem p hch)) y]

/-- The anchor substitution distributes over a placeholder-like separator:
a nonempty run with no whitespace and no anchor character splits the pass
into independent passes over the two sides. -/
theorem sub_around_distrib_aux (c : Char) (P : List Char) (hP : P ≠ [])
    (h : ∀ ch ∈ P, pyStrWS ch = false ∧ ch ≠ c) :
    ∀ (n : Nat) (x : List Char), x.length ≤ n → ∀ (y : List Char),
      sub_around c (x ++ P ++ y) = sub_around c x ++ P ++ sub_around c y := by
  intro n
  induction n with
  | zero =>
    intro x hx y
    have hx0 : x = [] := by
      cases x with
      | nil => rfl
      | cons a r => simp at hx
    subst hx0
    have e : sub_around c ([] : List Char) = [] := rfl
    simp only [List.nil_append, e]
    exact sub_around_append_of_head c P hP h y
  | succ n ih =>
    intro x hx y
    cases x with
    | nil =>
      have e : sub_around c ([] : List Char) = [] := rfl
      simp only [List.nil_append, e]
      exact sub_around_append_of_head c P hP h y
    | cons a x' =>
      simp only [List.length_cons] at hx
      simp only [List.cons_append]
      rw [sub_around_cons, sub_around_cons]
      by_cases hac : a = c
      · rw [if_pos hac, if_pos hac]
        have hd := dropWhile_append_head_false x' P y hP (fun ch hch => (h ch hch).1)
        rw [hd]
        rw [ih (x'.dropWhile pyStrWS) (le_trans (length_dropWhile_le _ _) (by omega)) y]
        simp
      · rw [if_neg hac, if_neg hac]
        by_cases haw : pyStrWS a = true
        · rw [if_pos haw, if_pos haw]
          have hda : (a :: ((x' ++ P) ++ y)).dropWhile pyStrWS
              = (a :: x').dropWhile pyStrWS ++ P ++ y := by
            have hfull := dropWhile_append_head_false (a :: x') P y hP
              (fun ch hch => (h ch hch).1)
            simpa [List.cons_append] using hfull
          rw [hda]
          cases hdr : (a :: x').dropWhile pyStrWS with
          | nil =>
            obtain ⟨p, P', rfl⟩ : ∃ p P', P = p :: P' := by
              cases P with
              | nil => exact absurd rfl hP
              | cons u v => exact ⟨u, v, rfl⟩
            simp only [List.nil_append, List.cons_append]
            rw [if_neg (h p (by simp)).2]
            rw [ih x' (by omega) y]
          | cons b rest =>
            simp only [List.cons_append]
            have hlen : rest.length ≤ x'.length := by
              have h1 := length_dropWhile_le pyStrWS (a :: x')
              rw [hdr] at h1
              simp only [List.length_cons] at h1
              omega
            by_cases hbc : b = c
            · rw [if_pos hbc, if_pos hbc]
              have hd2 := dropWhile_append_head_false rest P y hP
                (fun ch hch => (h ch hch).1)
              rw [hd2]
              rw [ih (rest.dropWhile pyStrWS)
                (le_trans (length_dropWhile_le _ _) (by omega)) y]
              simp
            · rw [if_neg hbc, if_neg hbc]
              rw [ih x' (by omega) y]
              simp
        · rw [if_neg haw, if_neg haw]
          rw [ih x' (by omega) y]
          simp

theorem sub_around_distrib (c : Char) (P : List Char) (hP : P ≠ [])
    (h : ∀ ch ∈ P, pyStrWS ch = false ∧ ch ≠ c) (x y : List Char) :
    sub_around c (x ++ P ++ y) = sub_around c x ++ P ++ sub_around c y :=
  sub_around_distrib_aux c P hP h x.length x le_rfl y

/-- The whole shell transformation distributes over a placeholder, provided
the unescape oracle does. -/
theorem shellTransform_distrib (u : List Char → List Char)
    (hu : ∀ (x y : List Char) (k : Nat), u (x ++ ph k ++ y) = u x ++ ph k ++ u y)
    (k : Nat) (x y : List Char) :
    shellTransform u (x ++ ph k ++ y) =
      shellTransform u x ++ ph k ++ shellTransform u y := by
  unfold shellTransform
  rw [hu]
  rw [collapse_hws_distrib (ph k) (ph_ne_nil k)
    (fun c hc => isHWS_ph_false (ph_mem k c hc))]
  rw [sub_around_distrib ';' (ph k) (ph_ne_nil k)
    (ph_shell_cond k ';' (Or.inr (Or.inl rfl)))]
  rw [sub_around_distrib ':' (ph k) (ph_ne_nil k)
    (ph_shell_cond k ':' (Or.inl rfl))]
  rw [sub_around_distrib lbrace (ph k) (ph_ne_nil k)
    (ph_shell_cond k lbrace (Or.inr (Or.inr (Or.inl lbrace_toNat))))]
  rw [sub_around_distrib rbrace (ph k) (ph_ne_nil k)
    (ph_shell_cond k rbrace (Or.inr (Or.inr (Or.inr rbrace_toNat))))]

/-- The transformed shell equals the interleaving of transformed text pieces
with untouched placeholders. -/
theorem shellOf_transform (u : List Char → List Char)
    (hu : ∀ (x y : List Char) (k : Nat), u (x ++ ph k ++ y) = u x ++ ph k ++ u y) :
    ∀ (ps : List (List Char × List Char)) (k : Nat) (fin : List Char),
      shellTransform u (shellOf k ps fin) = tshell_from u k ps fin := by
  intro ps
  induction ps with
  | nil => intro k fin; rfl
  | cons p ps' ih =>
    intro k fin
    obtain ⟨o, t⟩ := p
    rw [shellOf, shellTransform_distrib u hu k, ih (k + 1) fin, tshell_from]

/-- One-step unfolding of the gas-bounded `replace`. -/
theorem pyReplace_gas_step (old new : List Char) (g : Nat) (a : Char)
    (r : List Char) :
    pyReplace_gas old new (g + 1) (a :: r) =
      if old ≠ [] ∧ old.isPrefixOf (a :: r) = true then
        new ++ pyReplace_gas old new g ((a :: r).drop old.length)
      else a :: pyReplace_gas old new g r := rfl

/-- The gas bound of `replace` is irrelevant once it dominates the input
length. -/
theorem pyReplace_gas_stable (old new : List Char) :
    ∀ (n : Nat) (l : List Char), l.length ≤ n →
      ∀ (g g' : Nat), l.length ≤ g → l.length ≤ g' →
        pyReplace_gas old new g l = pyReplace_gas old new g' l := by
  intro n
  induction n with
  | zero =>
    intro l hl g g' _ _
    have hl0 : l = [] := by
      cases l with
      | nil => rfl
      | cons a r => simp at hl
    subst hl0
    cases g <;> cases g' <;> rfl
  | succ n ih =>
    intro l hl g g' hg hg'
    cases l with
    | nil => cases g <;> cases g' <;> rfl
    | cons a r =>
      obtain ⟨g1, rfl⟩ : ∃ m, g = m + 1 := by
        cases g with
        | zero => simp at hg
        | succ m => exact ⟨m, rfl⟩
      obtain ⟨g2, rfl⟩ : ∃ m, g' = m + 1 := by
        cases g' with
        | zero => simp at hg'
        | succ m => exact ⟨m, rfl⟩
      simp only [List.length_cons] at hl hg hg'
      rw [pyReplace_gas_step, pyReplace_gas_step]
      by_cases hc : old ≠ [] ∧ old.isPrefixOf (a :: r) = true
      · rw [if_pos hc, if_pos hc]
        have hlen : ((a :: r).drop old.length).length ≤ r.length := by
          have h1 : 1 ≤ old.length := by
            cases hol : old with
            | nil => exact absurd hol hc.1
            | cons _ _ => simp
          rw [List.length_drop]
          simp only [List.length_cons]
          omega
        rw [ih _ (by omega) g1 g2 (by omega) (by omega)]
      · rw [if_neg hc, if_neg hc, ih r (by omega) g1 g2 (by omega) (by omega)]

theorem pyReplace_gas_eq (old new : List Char) (g : Nat) (l : List Char)
    (hg : l.length ≤ g) : pyReplace_gas old new g l = pyReplace old new l := by
  unfold pyReplace
  exact pyReplace_gas_stable old new l.length l le_rfl g (l.length + 1) hg (by omega)

/-- One-step unfolding of `replace` on a nonempty input. -/
theorem pyReplace_cons (old new : List Char) (a : Char) (r : List Char) :
    pyReplace old new (a :: r) =
      if old ≠ [] ∧ old.isPrefixOf (a :: r) = true then
        new ++ pyReplace old new ((a :: r).drop old.length)
      else a :: pyReplace old new r := by
  have h1 : pyReplace old new (a :: r)
      = pyReplace_gas old new (r.length + 1 + 1) (a :: r) := rfl
  rw [h1, pyReplace_gas_step]
  by_cases hc : old ≠ [] ∧ old.isPrefixOf (a :: r) = true
  · rw [if_pos hc, if_pos hc]
    congr 1
    apply pyReplace_gas_eq
    have h2 : 1 ≤ old.length := by
      cases hol : old with
      | nil => exact absurd hol hc.1
      | cons _ _ => simp
    rw [List.length_drop]
    simp only [List.length_cons]
    omega
  · rw [if_neg hc, if_neg hc]
    rw [pyReplace_gas_eq old new (r.length + 1) r (by omega)]

/-- One-step unfolding of the gas-bounded occurrence count. -/
theorem countOcc_gas_step (pat : List Char) (g : Nat) (a : Char)
    (r : List Char) :
    countOcc_gas pat (g + 1) (a :: r) =
      if pat ≠ [] ∧ pat.isPrefixOf (a :: r) = true then
        1 + countOcc_gas pat g ((a :: r).drop pat.length)
      else countOcc_gas pat g r := rfl

/-- The gas bound of the occurrence count is irrelevant once it dominates
the input length. -/
theorem countOcc_gas_stable (pat : List Char) :
    ∀ (n : Nat) (l : List Char), l.length ≤ n →
      ∀ (g g' : Nat), l.length ≤ g → l.length ≤ g' →
        countOcc_gas pat g l = countOcc_gas pat g' l := by
  intro n
  induction n with
  | zero =>
    intro l hl g g' _ _
    have hl0 : l = [] := by
      cases l with
      | nil => rfl
      | cons a r => simp at hl
    subst hl0
    cases g <;> cases g' <;> rfl
  | succ n ih =>
    intro l hl g g' hg hg'
    cases l with
    | nil => cases g <;> cases g' <;> rfl
    | cons a r =>
      obtain ⟨g1, rfl⟩ : ∃ m, g = m + 1 := by
        cases g with
        | zero => simp at hg
        | succ m => exact ⟨m, rfl⟩
      obtain ⟨g2, rfl⟩ : ∃ m, g' = m + 1 := by
        cases g' with
        | zero => simp at hg'
        | succ m => exact ⟨m, rfl⟩
      simp only [List.length_cons] at hl hg hg'
      rw [countOcc_gas_step, countOcc_gas_step]
      by_cases hc : pat ≠ [] ∧ pat.isPrefixOf (a :: r) = true
      · rw [if_pos hc, if_pos hc]
        have hlen : ((a :: r).drop pat.length).length ≤ r.length := by
          have h1 : 1 ≤ pat.length := by
            cases hol : pat with
            | nil => exact absurd hol hc.1
            | cons _ _ => simp
          rw [List.length_drop]
          simp only [List.length_cons]
          omega
        rw [ih _ (by omega) g1 g2 (by omega) (by omega)]
      · rw [if_neg hc, if_neg hc, ih r (by omega) g1 g2 (by omega) (by omega)]

theorem countOcc_gas_eq (pat : List Char) (g : Nat) (l : List Char)
    (hg : l.length ≤ g) : countOcc_gas pat g l = countOcc pat l := by
  unfold countOcc
  exact countOcc_gas_stable pat l.length l le_rfl g (l.length + 1) hg (by omega)

/-- One-step unfolding of the occurrence count on a nonempty input. -/
theorem countOcc_cons (pat : List Char) (a : Char) (r : List Char) :
    countOcc pat (a :: r) =
      if pat ≠ [] ∧ pat.isPrefixOf (a :: r) = true then
        1 + countOcc pat ((a :: r).drop pat.length)
      else countOcc pat r := by
  have h1 : countOcc pat (a :: r)
      = countOcc_gas pat (r.length + 1 + 1) (a :: r) := rfl
  rw [h1, countOcc_gas_step]
  by_cases hc : pat ≠ [] ∧ pat.isPrefixOf (a :: r) = true
  · rw [if_pos hc, if_pos hc]
    congr 1
    apply countOcc_gas_eq
    have h2 : 1 ≤ pat.length := by
      cases hol : pat with
      | nil => exact absurd hol hc.1
      | cons _ _ => simp
    rw [List.length_drop]
    simp only [List.length_cons]
    omega
  · rw [if_neg hc, if_neg hc]
    exact countOcc_gas_eq pat (r.length + 1) r (by omega)

/-- A list is a `isPrefixOf`-prefix of itself followed by anything. -/
theorem isPrefixOf_append_self : ∀ (l t : List Char), l.isPrefixOf (l ++ t) = true := by
  intro l
  induction l with
  | nil => intro t; cases t <;> rfl
  | cons a as ih =>
    intro t
    show (a == a && as.isPrefixOf (as ++ t)) = true
    simp [ih t]

/-- `replace` on a text with no occurrence of the pattern is the identity. -/
theorem pyReplace_of_countOcc_zero (old new : List Char) :
    ∀ (n : Nat) (s : List Char), s.length ≤ n →
      countOcc old s = 0 → pyReplace old new s = s := by
  intro n
  induction n with
  | zero =>
    intro s hs _
    have hs0 : s = [] := by
      cases s with
      | nil => rfl
      | cons a r => simp at hs
    subst hs0
    rfl
  | succ n ih =>
    intro s hs h0
    cases s with
    | nil => rfl
    | cons a r =>
      rw [countOcc_cons] at h0
      rw [pyReplace_cons]
      by_cases hc : old ≠ [] ∧ old.isPrefixOf (a :: r) = true
      · rw [if_pos hc] at h0
        omega
      · rw [if_neg hc] at h0
        rw [if_neg hc]
        rw [ih r (by simp only [List.length_cons] at hs; omega) h0]

/-- If the pattern occurs exactly once — at the marked position, with no
occurrence starting earlier — then `replace` substitutes exactly there. -/
theorem pyReplace_single (pat t : List Char) (hpat : pat ≠ []) :
    ∀ (A B : List Char),
      (∀ p, p < A.length → pat.isPrefixOf ((A ++ pat ++ B).drop p) = false) →
      countOcc pat (A ++ pat ++ B) = 1 →
      pyReplace pat t (A ++ pat ++ B) = A ++ t ++ B := by
  intro A
  induction A with
  | nil =>
    intro B _ hcount
    simp only [List.nil_append] at hcount ⊢
    obtain ⟨q, pat', rfl⟩ : ∃ q pat', pat = q :: pat' := by
      cases pat with
      | nil => exact absurd rfl hpat
      | cons a b => exact ⟨a, b, rfl⟩
    simp only [List.cons_append] at hcount ⊢
    have hpref : (q :: pat') ≠ [] ∧
        (q :: pat').isPrefixOf (q :: (pat' ++ B)) = true :=
      ⟨hpat, by simpa [List.cons_append] using isPrefixOf_append_self (q :: pat') B⟩
    have hdrop : (q :: (pat' ++ B)).drop (q :: pat').length = B := by
      have hdl := List.drop_left (q :: pat') B
      simpa [List.cons_append] using hdl
    rw [pyReplace_cons, if_pos hpref, hdrop]
    rw [countOcc_cons, if_pos hpref, hdrop] at hcount
    rw [pyReplace_of_countOcc_zero (q :: pat') t B.length B le_rfl (by omega)]
  | cons a A' ih =>
    intro B hpre hcount
    simp only [List.cons_append, List.length_cons] at hpre hcount ⊢
    have h0 : pat.isPrefixOf (a :: (A' ++ pat ++ B)) = false := by
      have hh := hpre 0 (by omega)
      rwa [List.drop_zero] at hh
    rw [pyReplace_cons, if_neg (fun hcond => by rw [hcond.2] at h0; exact Bool.noConfusion h0)]
    rw [countOcc_cons, if_neg (fun hcond => by rw [hcond.2] at h0; exact Bool.noConfusion h0)] at hcount
    rw [ih B ?_ hcount]
    intro p hp
    have hh := hpre (p + 1) (by omega)
    simpa [List.drop_succ_cons] using hh

/-- The restore loop, run on the transformed shell, re-inserts every stashed
token verbatim between the transformed text pieces, provided each
placeholder occurs exactly once at its stashed position when replaced. -/
theorem restore_go_spec (u : List Char → List Char) :
    ∀ (ps : List (List Char × List Char)) (fin : List Char) (k : Nat)
      (pre : List Char),
      restore_ok u k pre ps fin = true →
      restore_go (ps.map Prod.snd) k (pre ++ tshell_from u k ps fin) =
        pre ++ stitched_from u ps fin := by
  intro ps
  induction ps with
  | nil =>
    intro fin k pre _
    rfl
  | cons p ps' ih =>
    intro fin k pre hok
    obtain ⟨o, t⟩ := p
    rw [restore_ok] at hok
    simp only [Bool.and_eq_true, decide_eq_true_eq, beq_iff_eq] at hok
    obtain ⟨⟨hpre, hcount⟩, hrest⟩ := hok
    simp only [List.map_cons]
    rw [restore_go]
    have htsh : tshell_from u k ((o, t) :: ps') fin
        = shellTransform u o ++ ph k ++ tshell_from u (k + 1) ps' fin := rfl
    rw [htsh]
    have hassoc : pre ++ (shellTransform u o ++ ph k ++ tshell_from u (k + 1) ps' fin)
        = (pre ++ shellTransform u o) ++ ph k ++ tshell_from u (k + 1) ps' fin := by
      simp [List.append_assoc]
    rw [hassoc]
    rw [pyReplace_single (ph k) t (ph_ne_nil k) (pre ++ shellTransform u o)
      (tshell_from u (k + 1) ps' fin) hpre hcount]
    rw [ih fin (k + 1) ((pre ++ shellTransform u o) ++ t) hrest]
    have hst : stitched_from u ((o, t) :: ps') fin
        = shellTransform u o ++ t ++ stitched_from u ps' fin := rfl
    rw [hst]
    simp [List.append_assoc]

/-- `safe_cleanup_shell_only` equals the stitched form: each stashed token
byte-for-byte unchanged, the shell pipeline applied only outside them —
provided the unescape oracle distributes over placeholders and no
placeholder collision occurs. -/
theorem safe_cleanup_spec (u : List Char → List Char)
    (hu : ∀ (x y : List Char) (k : Nat), u (x ++ ph k ++ y) = u x ++ ph k ++ u y)
    (s : List Char)
    (hok : restore_ok u 0 [] (stash_split s).1 (stash_split s).2 = true) :
    safe_cleanup_shell_only u s =
      stitched_from u (stash_split s).1 (stash_split s).2 := by
  show restore_go ((stash_split s).1.map Prod.snd) 0
      (shellTransform u (shellOf 0 (stash_split s).1 (stash_split s).2)) =
    stitched_from u (stash_split s).1 (stash_split s).2
  rw [shellOf_transform u hu (stash_split s).1 0 (stash_split s).2]
  have h := restore_go_spec u (stash_split s).1 (stash_split s).2 0 [] hok
  simpa using h

/- ===================== Dispatch characterizations ===================== -/

/-- `_parse_value` is the shared dispatch body, with the deeper parser absent
exactly at fuel 0. -/
theorem parse_value_eq_body {lenient : Bool} {b : List Nat} {fuel : Nat}
    {i : Int} {ws : List Warn} :
    parse_value lenient b fuel i ws =
      parse_value_body lenient b
        (match fuel with
         | 0 => none
         | fuel' + 1 => some (parse_value lenient b fuel')) i ws := by
  cases fuel <;> rfl

/-- On an `i:` tag the dispatch runs the integer parser. -/
theorem parse_value_body_int {lenient : Bool} {b : List Nat}
    {deeper : Option (Int → List Warn → PRes (Value × Int × List Warn))}
    {i : Int} {ws : List Warn} (hi : pySlice b i (i + 2) = [105, 58]) :
    parse_value_body lenient b deeper i ws =
      (match parse_int b (i + 2) with
       | .error e => .err e
       | .ok (n, i') => .ok (.int n, i', ws)) := by
  unfold parse_value_body
  dsimp only
  rw [if_neg (fun hc => by rw [hi] at hc; exact absurd hc (by decide)), if_pos hi]

/-- On a `d:` tag the dispatch runs the float parser. -/
theorem parse_value_body_float {lenient : Bool} {b : List Nat}
    {deeper : Option (Int → List Warn → PRes (Value × Int × List Warn))}
    {i : Int} {ws : List Warn} (hd : pySlice b i (i + 2) = [100, 58]) :
    parse_value_body lenient b deeper i ws =
      (match parse_float b (i + 2) with
       | .error e => .err e
       | .ok (raw, i') => .ok (.float raw, i', ws)) := by
  unfold parse_value_body
  dsimp only
  rw [if_neg (fun hc => by rw [hd] at hc; exact absurd hc (by decide)),
    if_neg (fun hc => by rw [hd] at hc; exact absurd hc (by decide)),
    if_pos hd]

/-- On a tag that is none of the six grammar productions the dispatch raises
at the tag offset, whatever the deeper parser is. -/
theorem parse_value_body_badtag {lenient : Bool} {b : List Nat}
    {deeper : Option (Int → List Warn → PRes (Value × Int × List Warn))}
    {i : Int} {ws : List Warn}
    (h : pySlice b i (i + 2) ∉
      ([[115, 58], [105, 58], [100, 58], [98, 58], [78, 59], [97, 58]] :
        List (List Nat))) :
    parse_value_body lenient b deeper i ws = .err ⟨.unsupportedValueType, i⟩ := by
  unfold parse_value_body
  dsimp only
  rw [if_neg (fun hc => h (by rw [hc]; decide)),
    if_neg (fun hc => h (by rw [hc]; decide)),
    if_neg (fun hc => h (by rw [hc]; decide)),
    if_neg (fun hc => h (by rw [hc]; decide)),
    if_neg (fun hc => h (by rw [hc]; decide)),
    if_neg (fun hc => h (by rw [hc]; decide))]

/-- `_parse_int` on the slice up to the first `;`. -/
theorem parse_int_eq {b : List Nat} {i : Int} {j : Nat}
    (hj : pyFindByte b 59 i (b.length : Int) = some j) :
    parse_int b i =
      (match pyIntParse (pySlice b i (j : Int)) with
       | some n => .ok (n, (j : Int) + 1)
       | none => .error ⟨.invalidInteger, (j : Int) + 1⟩) := by
  unfold parse_int read_until
  rw [hj]

/-- `_parse_float` on the slice up to the first `;`. -/
theorem parse_float_eq {b : List Nat} {i : Int} {j : Nat}
    (hj : pyFindByte b 59 i (b.length : Int) = some j) :
    parse_float b i =
      (if pyFloatOk (pySlice b i (j : Int)) then
        Except.ok (pySlice b i (j : Int), (j : Int) + 1)
       else .error ⟨.invalidFloat, (j : Int) + 1⟩) := by
  unfold parse_float read_until
  rw [hj]

/-- The short-string branch of `_parse_string`: with fewer bytes remaining
than declared, strict mode fails at the offset just past the opening quote;
lenient mode runs the bounded scan, succeeding with the scanned payload and
one `string_length_repair_short` diagnostic, or failing when the scan finds
no viable closing. -/
theorem parse_string_short_eq {b : List Nat} {i : Int} {ws : List Warn}
    {sl : List Nat} {i1 : Int} {strlen : Int}
    (h1 : read_until b i 58 = .ok (sl, i1))
    (h2 : pyIntParse sl = some strlen)
    (h3 : pySlice b i1 (i1 + 1) = [34])
    (h4 : (b.length : Int) - (i1 + 1) < strlen) :
    parse_string false b i ws = .error ⟨.stringTooShort, i1 + 1⟩ ∧
    parse_string true b i ws =
      (match lenient_scan_close b (i1 + 1) with
       | none => Except.error ⟨.noViableClosing, i1 + 1⟩
       | some (sb, iNew) =>
         .ok (decode_bytes sb, iNew, ws ++ [.short (i1 + 1) strlen sb.length])) := by
  constructor
  · unfold parse_string
    rw [h1]
    dsimp only
    rw [h2]
    dsimp only
    rw [if_neg (fun hne => hne h3)]
    rw [if_pos h4, if_pos rfl]
  · unfold parse_string
    rw [h1]
    dsimp only
    rw [h2]
    dsimp only
    rw [if_neg (fun hne => hne h3)]
    rw [if_pos h4, if_neg (by decide : ¬ (true = false))]

/-- The terminator-mismatch branch of `_parse_string`: the declared length
fits, but the expected `"` + whitespace + `;` closing is absent.  Strict mode
fails at the current position (past the closing quote's whitespace when the
quote is present, at the expected end otherwise); lenient mode runs the
bounded scan from the same start, failing at that same position when the
scan finds no viable closing. -/
theorem parse_string_mismatch_eq {b : List Nat} {i : Int} {ws : List Warn}
    {sl : List Nat} {i1 : Int} {strlen : Int}
    (h1 : read_until b i 58 = .ok (sl, i1))
    (h2 : pyIntParse sl = some strlen)
    (h3 : pySlice b i1 (i1 + 1) = [34])
    (h4 : ¬ ((b.length : Int) - (i1 + 1) < strlen))
    (h5 : ¬ (pySlice b (i1 + 1 + strlen) (i1 + 1 + strlen + 1) = [34] ∧
        pySlice b (ws_skip b (i1 + 1 + strlen + 1))
          (ws_skip b (i1 + 1 + strlen + 1) + 1) = [59])) :
    parse_string false b i ws =
      .error ⟨.expectedClosing,
        if pySlice b (i1 + 1 + strlen) (i1 + 1 + strlen + 1) = [34] then
          ws_skip b (i1 + 1 + strlen + 1)
        else i1 + 1 + strlen⟩ ∧
    parse_string true b i ws =
      (match lenient_scan_close b (i1 + 1) with
       | none => Except.error ⟨.expectedClosing,
           if pySlice b (i1 + 1 + strlen) (i1 + 1 + strlen + 1) = [34] then
             ws_skip b (i1 + 1 + strlen + 1)
           else i1 + 1 + strlen⟩
       | some (sb2, iNew) =>
         .ok (decode_bytes sb2, iNew,
           if (sb2.length : Int) ≠ strlen then
             ws ++ [.mismatch (i1 + 1) strlen sb2.length]
           else ws)) := by
  constructor
  · unfold parse_string
    rw [h1]
    dsimp only
    rw [h2]
    dsimp only
    rw [if_neg (fun hne => hne h3)]
    rw [if_neg h4, if_neg h5, if_neg (by decide : ¬ (false = true))]
  · unfold parse_string
    rw [h1]
    dsimp only
    rw [h2]
    dsimp only
    rw [if_neg (fun hne => hne h3)]
    rw [if_neg h4, if_neg h5, if_pos rfl]

/- ========================= Claim theorems ========================= -/

/-- C1 (amended): a well-formed `a:<count>:{...}` container whose productions
parse decodes to a List of the values in parse order exactly when it has at
least one key and the keys are the integers `0..len-1` in order; otherwise it
decodes to a Map whose key sequence preserves first-insertion parse order and
whose value at each key is the last written one (last write wins).  The
original claim's "exactly when the keys are 0,...,count-1" fails for the
zero-key container, whose vacuously canonical key list still produces a
Map. -/
theorem c1_container_classification
    (pk : Int → List Warn → Except PErr (PKey × Int × List Warn))
    (pv : Int → List Warn → PRes (Value × Int × List Warn))
    (b : List Nat) (i : Int) (ws : List Warn)
    (countBytes : List Nat) (i1 : Int) (count : Int)
    (items : List (PKey × Value)) (i2 : Int) (ws2 : List Warn)
    (h1 : read_until b i 58 = .ok (countBytes, i1))
    (h2 : pyIntParse countBytes = some count)
    (h3 : pySlice b i1 (i1 + 1) = [123])
    (h4 : parse_items pk pv count.toNat (i1 + 1) ws [] = .ok (items, i2, ws2))
    (h5 : pySlice b i2 (i2 + 1) = [125]) :
    (items.map Prod.fst ≠ [] ∧
        (items.map Prod.fst).all
          (fun k => match k with | .int _ => true | .str _ => false) = true ∧
        canonicalIntKeys (items.map Prod.fst) →
      parse_array_tail pk pv b i ws =
        .ok (.list (items.map Prod.snd), i2 + 1, ws2)) ∧
    (¬ (items.map Prod.fst ≠ [] ∧
        (items.map Prod.fst).all
          (fun k => match k with | .int _ => true | .str _ => false) = true ∧
        canonicalIntKeys (items.map Prod.fst)) →
      parse_array_tail pk pv b i ws =
        .ok (.map (dictFold items), i2 + 1, ws2)) ∧
    (dictFold items).map Prod.fst = dedupNewKeys [] (items.map Prod.fst) ∧
    (∀ k, lookupKey (dictFold items) k = lastAssoc items k) := by
  have hmain : parse_array_tail pk pv b i ws =
      if items.map Prod.fst ≠ [] ∧
          (items.map Prod.fst).all
            (fun k => match k with | .int _ => true | .str _ => false) = true ∧
          items.map Prod.fst = (List.range (items.map Prod.fst).length).map
            (fun n => PKey.int (Int.ofNat n)) then
        .ok (.list (items.map Prod.snd), i2 + 1, ws2)
      else
        .ok (.map (items.foldl (fun d kv => dictInsert d kv.1 kv.2) []),
          i2 + 1, ws2) := by
    unfold parse_array_tail
    rw [h1]
    dsimp only
    rw [h2]
    dsimp only
    rw [if_neg (fun hne => hne h3), h4]
    dsimp only
    rw [if_neg (fun hne => hne h5)]
  refine ⟨?_, ?_, dictFold_keys items, fun k => dictFold_lookup items k⟩
  · intro hc
    rw [hmain, if_pos ⟨hc.1, hc.2.1, hc.2.2⟩]
  · intro hc
    rw [hmain, if_neg (fun hcc => hc ⟨hcc.1, hcc.2.1, hcc.2.2⟩)]
    rfl

/-- C1 witness: the claim's own example `a:2:{i:0;s:1:"a";i:5;s:1:"b";}`
decodes to a Map keyed 0 and 5, not a List. -/
theorem c1_container_witness :
    parse_array_tail
      (parse_key false (strBytes "a:2:\x7bi:0;s:1:\"a\";i:5;s:1:\"b\";\x7d"))
      (parse_value false (strBytes "a:2:\x7bi:0;s:1:\"a\";i:5;s:1:\"b\";\x7d") 0)
      (strBytes "a:2:\x7bi:0;s:1:\"a\";i:5;s:1:\"b\";\x7d") 2 [] =
      .ok (.map [(.int 0, .str (strBytes "a")), (.int 5, .str (strBytes "b"))],
        30, []) := by
  have h := c1_container_classification
    (parse_key false (strBytes "a:2:\x7bi:0;s:1:\"a\";i:5;s:1:\"b\";\x7d"))
    (parse_value false (strBytes "a:2:\x7bi:0;s:1:\"a\";i:5;s:1:\"b\";\x7d") 0)
    (strBytes "a:2:\x7bi:0;s:1:\"a\";i:5;s:1:\"b\";\x7d") 2 []
    (strBytes "2") 4 2
    [(.int 0, .str (strBytes "a")), (.int 5, .str (strBytes "b"))] 29 []
    rfl rfl rfl rfl rfl
  have h2 := h.2.1 (by decide)
  rw [h2]
  rfl

/-- C1 counterexample: for the zero-key container the canonical-keys
condition holds vacuously, yet decode yields an (empty) Map, not a List —
the original "exactly when" is false. -/
theorem c1_counterexample :
    canonicalIntKeys ([] : List PKey) ∧
    parse_value false (strBytes "a:0:\x7b\x7d") 1 0 [] =
      PRes.ok (.map [], 6, []) :=
  ⟨rfl, rfl⟩

/-- C2: when a string token declares more bytes than remain after the opening
quote, strict decoding fails with the too-short `ParseError` at the offset
just past the opening quote, while lenient decoding takes the bounded repair
scan: on a viable closing it returns the scanned payload with exactly one
`string_length_repair_short` diagnostic carrying the declared and actual
lengths and resumes at the scan's resume offset, and with no viable closing
it fails. -/
theorem c2_short_string_repair {b : List Nat} {i : Int} {ws : List Warn}
    {sl : List Nat} {i1 : Int} {strlen : Int}
    (h1 : read_until b i 58 = .ok (sl, i1))
    (h2 : pyIntParse sl = some strlen)
    (h3 : pySlice b i1 (i1 + 1) = [34])
    (h4 : (b.length : Int) - (i1 + 1) < strlen) :
    parse_string false b i ws = .error ⟨.stringTooShort, i1 + 1⟩ ∧
    parse_string true b i ws =
      (match lenient_scan_close b (i1 + 1) with
       | none => Except.error ⟨.noViableClosing, i1 + 1⟩
       | some (sb, iNew) =>
         .ok (decode_bytes sb, iNew, ws ++ [.short (i1 + 1) strlen sb.length])) :=
  parse_string_short_eq h1 h2 h3 h4

/-- C2 witness: `s:10:"short";` raises with `lenient=false` and decodes to
the five payload bytes with one diagnostic (declared 10, actual 5) with
`lenient=true`. -/
theorem c2_short_string_witness :
    parse_string false (strBytes "s:10:\"short\";") 2 [] =
      .error ⟨.stringTooShort, 6⟩ ∧
    parse_string true (strBytes "s:10:\"short\";") 2 [] =
      .ok (strBytes "short", 13, [.short 6 10 5]) := by
  have h := @c2_short_string_repair (strBytes "s:10:\"short\";") 2 []
    (strBytes "10") 5 10 rfl rfl rfl (by decide)
  refine ⟨h.1, ?_⟩
  rw [h.2]
  rfl

/-- C3 (code bug): on the input `O:x` the grammar decoder raises `ParseError`
at byte offset 0 (unsupported `O:` tag); the input has no `{` or `[`, so
`strip_leading_noise` leaves it unchanged, and the last-resort strict JSON
parse of `O:x` fails (the oracle hypothesis `hjd` states exactly that
`json.loads` raises on this argument, which it does).  The outcome is then
the generic error handler, not the `ParseError` handler: the bare `raise`
inside the fallback's `except Exception:` re-raises the in-flight JSON
exception, which the outer `except ParseError` clause does not match, so the
rendered failure loses the captured byte offset and context snippet. -/
theorem c3_bare_raise_bug (jd : List Char → Option (List Char))
    (hjd : jd (("O:x").data) = none) :
    php_unserialize false 1 (encodeSP ("O:x").data) =
      .err ⟨.unsupportedValueType, 0⟩ ∧
    on_convert (fun l => l) jd false false 1 ("O:x").data = .otherError := by
  refine ⟨rfl, ?_⟩
  show convert_core jd false 1 (("O:x").data) = .otherError
  unfold convert_core
  rw [show php_unserialize false 1 (encodeSP (("O:x").data)) =
    PRes.err ⟨.unsupportedValueType, 0⟩ from rfl]
  dsimp only
  rw [show strip_leading_noise (("O:x").data) = ("O:x").data from rfl, hjd]

/-- C3 witness: with the JSON oracle failing on `O:x` — as `json.loads`
does — the run ends in the generic handler's outcome. -/
theorem c3_bare_raise_witness :
    (fun _ => (none : Option (List Char))) (("O:x").data) = none ∧
    on_convert (fun l => l) (fun _ => none) false false 1 ("O:x").data =
      .otherError :=
  ⟨rfl, (c3_bare_raise_bug (fun _ => none) rfl).2⟩

/-- C4: the lenient repair scan returns the span from the start to the
earliest `"` within the million-byte lookahead that is followed by optional
ASCII whitespace and a `;`, resuming just past that `;`; when no such
quote/semicolon pair exists the scan reports no viable closing, and a string
parse that invokes the scan from that start — from the too-short branch or
from the terminator-mismatch branch (declared length fits, closing absent) —
then raises `ParseError` whether lenient or strict. -/
theorem c4_lenient_scan_spec (b : List Nat) (start : Nat) :
    lenient_scan_close b (start : Int) =
      (match firstViable b start (min b.length (start + 1000000)) with
       | none => none
       | some q =>
         some ((b.drop start).take (q - start), ((wsEndNat b (q + 1) : Int) + 1))) ∧
    (firstViable b start (min b.length (start + 1000000)) = none →
      ∀ (lenient : Bool) (i i1 strlen : Int) (ws : List Warn) (sl : List Nat),
        read_until b i 58 = .ok (sl, i1) →
        pyIntParse sl = some strlen →
        pySlice b i1 (i1 + 1) = [34] →
        i1 + 1 = (start : Int) →
        ((b.length : Int) - (i1 + 1) < strlen ∨
          ¬ (pySlice b (i1 + 1 + strlen) (i1 + 1 + strlen + 1) = [34] ∧
            pySlice b (ws_skip b (i1 + 1 + strlen + 1))
              (ws_skip b (i1 + 1 + strlen + 1) + 1) = [59])) →
        ∃ e, parse_string lenient b i ws = .error e) := by
  refine ⟨lenient_scan_close_spec b start, ?_⟩
  intro hnone lenient i i1 strlen ws sl hr hp hq heq hcase
  have hz : lenient_scan_close b (start : Int) = none := by
    rw [lenient_scan_close_spec b start, hnone]
  by_cases hshort : (b.length : Int) - (i1 + 1) < strlen
  · have h := @parse_string_short_eq b i ws sl i1 strlen hr hp hq hshort
    cases lenient with
    | false => exact ⟨_, h.1⟩
    | true =>
      refine ⟨⟨.noViableClosing, i1 + 1⟩, ?_⟩
      rw [h.2, heq, hz]
  · have hterm : ¬ (pySlice b (i1 + 1 + strlen) (i1 + 1 + strlen + 1) = [34] ∧
        pySlice b (ws_skip b (i1 + 1 + strlen + 1))
          (ws_skip b (i1 + 1 + strlen + 1) + 1) = [59]) := by
      rcases hcase with hs | hm
      · exact absurd hs hshort
      · exact hm
    have h := @parse_string_mismatch_eq b i ws sl i1 strlen hr hp hq hshort hterm
    cases lenient with
    | false => exact ⟨_, h.1⟩
    | true =>
      refine ⟨⟨.expectedClosing,
        if pySlice b (i1 + 1 + strlen) (i1 + 1 + strlen + 1) = [34] then
          ws_skip b (i1 + 1 + strlen + 1)
        else i1 + 1 + strlen⟩, ?_⟩
      rw [h.2, heq, hz]

/-- C4 witness: in the too-short `s:10:"short` no viable closing exists after
the opening quote and the lenient parse fails; in the terminator-mismatch
`s:3:"abcdef` (declared length fits, closing absent) the scan also reports
none and both leniency settings fail. -/
theorem c4_lenient_scan_witness :
    lenient_scan_close (strBytes "s:10:\"short") ((6 : Nat) : Int) = none ∧
    (∃ e, parse_string true (strBytes "s:10:\"short") 2 [] = .error e) ∧
    lenient_scan_close (strBytes "s:3:\"abcdef") ((5 : Nat) : Int) = none ∧
    (∃ e, parse_string true (strBytes "s:3:\"abcdef") 2 [] = .error e) ∧
    (∃ e, parse_string false (strBytes "s:3:\"abcdef") 2 [] = .error e) := by
  have h := c4_lenient_scan_spec (strBytes "s:10:\"short") 6
  have h2 := c4_lenient_scan_spec (strBytes "s:3:\"abcdef") 5
  refine ⟨?_, ?_, ?_, ?_, ?_⟩
  · rw [h.1]
    rfl
  · exact h.2 (by decide) true 2 5 10 [] (strBytes "10") rfl rfl rfl (by decide)
      (Or.inl (by decide))
  · rw [h2.1]
    rfl
  · exact h2.2 (by decide) true 2 4 3 [] (strBytes "3") rfl rfl rfl (by decide)
      (Or.inr (by decide))
  · exact h2.2 (by decide) false 2 4 3 [] (strBytes "3") rfl rfl rfl (by decide)
      (Or.inr (by decide))

/-- C5: a two-byte lead tag outside the grammar where a value is expected
(none of `s:`, `i:`, `d:`, `b:`, `a:`, `N;`) raises `ParseError` at that
offset identically for lenient and strict decoding, at every recursion
depth; and wherever a container key is expected, any tag other than `i:` or
`s:` (including `d:`, `b:`, `a:`, `N;`) raises the key-type `ParseError` at
its offset for either leniency. -/
theorem c5_shape_error_lenient_invariant (b : List Nat) (fuel : Nat) (i : Int)
    (ws : List Warn) :
    (pySlice b i (i + 2) ∉
        ([[115, 58], [105, 58], [100, 58], [98, 58], [78, 59], [97, 58]] :
          List (List Nat)) →
      parse_value true b fuel i ws = .err ⟨.unsupportedValueType, i⟩ ∧
      parse_value false b fuel i ws = .err ⟨.unsupportedValueType, i⟩) ∧
    (pySlice b i (i + 2) ∉ ([[105, 58], [115, 58]] : List (List Nat)) →
      ∀ lenient : Bool, parse_key lenient b i ws =
        .error ⟨.unsupportedKeyType, i⟩) := by
  constructor
  · intro h
    constructor
    · rw [parse_value_eq_body]
      exact parse_value_body_badtag h
    · rw [parse_value_eq_body]
      exact parse_value_body_badtag h
  · intro h lenient
    unfold parse_key
    dsimp only
    rw [if_neg (fun hc => h (by rw [hc]; decide)),
      if_neg (fun hc => h (by rw [hc]; decide))]

/-- C5 witness: the object tag `O:` raises the same unsupported-type error at
offset 0 under both leniency settings, and the key tag `N;` inside
`a:1:{N;N;}` — a value tag, but not a key tag — raises the key-type error at
its offset under both leniency settings. -/
theorem c5_shape_error_witness :
    parse_value true (strBytes "O:8:\"stdClass\":0:\x7b\x7d") 1 0 [] =
      .err ⟨.unsupportedValueType, 0⟩ ∧
    parse_value false (strBytes "O:8:\"stdClass\":0:\x7b\x7d") 1 0 [] =
      .err ⟨.unsupportedValueType, 0⟩ ∧
    parse_key true (strBytes "a:1:\x7bN;N;\x7d") 5 [] =
      .error ⟨.unsupportedKeyType, 5⟩ ∧
    parse_key false (strBytes "a:1:\x7bN;N;\x7d") 5 [] =
      .error ⟨.unsupportedKeyType, 5⟩ := by
  have h1 := (c5_shape_error_lenient_invariant
    (strBytes "O:8:\"stdClass\":0:\x7b\x7d") 1 0 []).1 (by decide)
  have h2 := (c5_shape_error_lenient_invariant
    (strBytes "a:1:\x7bN;N;\x7d") 1 5 []).2 (by decide)
  exact ⟨h1.1, h1.2, h2 true, h2 false⟩

/-- C6 (amended): provided the HTML-unescape step distributes over the stash
placeholders and no placeholder collision occurs during restoration (each
`@@S{k}@@` occurs exactly once, at its stashed position), `clean(text)`
equals the stitched form: every stashed `s:<len>:"...";` token appears
byte-for-byte unchanged, and unescaping, horizontal-whitespace collapsing
and anchor-adjacent whitespace removal are applied only to the text outside
the stashed tokens.  The original unconditional claim fails when a token's
content or the surrounding text contains a placeholder-shaped substring. -/
theorem c6_cleanup_outside_tokens (u : List Char → List Char)
    (hu : ∀ (x y : List Char) (k : Nat), u (x ++ ph k ++ y) = u x ++ ph k ++ u y)
    (s : List Char)
    (hok : restore_ok u 0 [] (stash_split s).1 (stash_split s).2 = true) :
    safe_cleanup_shell_only u s =
      stitched_from u (stash_split s).1 (stash_split s).2 :=
  safe_cleanup_spec u hu s hok

/-- C6 witness: a string token with an inner space passes through cleanup
byte-for-byte unchanged under the identity unescape oracle. -/
theorem c6_cleanup_witness :
    (∀ (x y : List Char) (k : Nat),
      (fun l => l) (x ++ ph k ++ y) =
        (fun l => l) x ++ ph k ++ (fun l => l) y) ∧
    restore_ok (fun l => l) 0 [] (stash_split ("s:3:\"a b\";").data).1
      (stash_split ("s:3:\"a b\";").data).2 = true ∧
    safe_cleanup_shell_only (fun l => l) ("s:3:\"a b\";").data =
      stitched_from (fun l => l) (stash_split ("s:3:\"a b\";").data).1
        (stash_split ("s:3:\"a b\";").data).2 :=
  ⟨fun x y k => rfl, by decide,
    c6_cleanup_outside_tokens (fun l => l) (fun x y k => rfl) (("s:3:\"a b\";").data)
      (by decide)⟩

/-- C6 counterexample: when a stashed token's content contains the
placeholder `@@S1@@`, restoration substitutes the second token inside the
first one: cleanup corrupts the token, so the original unconditional claim is
false. -/
theorem c6_counterexample :
    safe_cleanup_shell_only (fun l => l) ("s:7:\"@@S1@@x\";s:1:\"y\";").data =
      ("s:7:\"s:1:\"y\";x\";s:1:\"y\";").data ∧
    safe_cleanup_shell_only (fun l => l) ("s:7:\"@@S1@@x\";s:1:\"y\";").data ≠
      stitched_from (fun l => l)
        (stash_split ("s:7:\"@@S1@@x\";s:1:\"y\";").data).1
        (stash_split ("s:7:\"@@S1@@x\";s:1:\"y\";").data).2 := by
  constructor
  · rfl
  · decide

/-- C7: embedded-JSON extraction first strips leading noise (with the other
tidy preprocessing), then tries every balanced `{...}` span in left-to-right
start order and only then every balanced `[...]` span, attempting on each a
strict JSON parse then a loose repair, and returns the first candidate that
parses (reformatted by the JSON oracle); it is absent exactly when no
candidate parses. -/
theorem c7_find_json_refinement (u : List Char → List Char)
    (jd : List Char → Option (List Char)) (s : List Char) :
    tidy_text_and_find_json u jd s = find_json_spec u jd s := by
  unfold tidy_text_and_find_json find_json_spec try_blocks
  dsimp only
  rw [findSome?_append_match]
  rw [try_blocks_go_spec, try_blocks_go_spec]
  unfold candidatesOf
  split
  · next j hj =>
    rw [hj]
  · next hnone =>
    rw [hnone]

/-- C8: on an `i:` value tag decode returns Int of the Python-`int()` value
of the bytes up to the first `;` and resumes past it, raising the
invalid-integer `ParseError` there when those bytes are not an integer
literal; on a `d:` tag it likewise returns Float of the bytes accepted by
Python `float()` and raises the invalid-float `ParseError` when they are
malformed. -/
theorem c8_numeric_tokens (lenient : Bool) (b : List Nat) (fuel : Nat) (i : Int)
    (ws : List Warn) :
    (pySlice b i (i + 2) = [105, 58] →
      ∀ j : Nat, pyFindByte b 59 (i + 2) (b.length : Int) = some j →
        (∀ n, pyIntParse (pySlice b (i + 2) (j : Int)) = some n →
          parse_value lenient b fuel i ws = .ok (.int n, (j : Int) + 1, ws)) ∧
        (pyIntParse (pySlice b (i + 2) (j : Int)) = none →
          parse_value lenient b fuel i ws =
            .err ⟨.invalidInteger, (j : Int) + 1⟩)) ∧
    (pySlice b i (i + 2) = [100, 58] →
      ∀ j : Nat, pyFindByte b 59 (i + 2) (b.length : Int) = some j →
        (pyFloatOk (pySlice b (i + 2) (j : Int)) = true →
          parse_value lenient b fuel i ws =
            .ok (.float (pySlice b (i + 2) (j : Int)), (j : Int) + 1, ws)) ∧
        (pyFloatOk (pySlice b (i + 2) (j : Int)) = false →
          parse_value lenient b fuel i ws =
            .err ⟨.invalidFloat, (j : Int) + 1⟩)) := by
  constructor
  · intro hi j hj
    rw [parse_value_eq_body, parse_value_body_int hi, parse_int_eq hj]
    constructor
    · intro n hn
      rw [hn]
    · intro hn
      rw [hn]
  · intro hd j hj
    rw [parse_value_eq_body, parse_value_body_float hd, parse_float_eq hj]
    constructor
    · intro hok
      rw [if_pos hok]
    · intro hok
      rw [if_neg (fun hcond => by rw [hok] at hcond; exact Bool.noConfusion hcond)]

/-- C8 witness: `i:42;` decodes to Int 42, and `d:oops;` raises the
invalid-float error at the offset past the `;`. -/
theorem c8_numeric_witness :
    parse_value false (strBytes "i:42;") 1 0 [] = .ok (.int 42, 5, []) ∧
    parse_value false (strBytes "d:oops;") 1 0 [] =
      .err ⟨.invalidFloat, 7⟩ := by
  have h1 := (c8_numeric_tokens false (strBytes "i:42;") 1 0 []).1 rfl 4 rfl
  have h2 := (c8_numeric_tokens false (strBytes "d:oops;") 1 0 []).2 rfl 6 rfl
  exact ⟨h1.1 42 rfl, h2.2 rfl⟩

/-- C9 (amended): a successful value parse always returns an offset within
the input (`new_offset ≤ len(b)`), and when the input contains no `-` byte —
so no negative declared string length can occur — the returned offset
strictly exceeds the entry offset; the original unconditional strict
increase is false, since a negative declared length `s:-N:` moves the
resume offset backward.  A failed lookahead scan changes no committed
state: when the bounded scan finds no viable closing, the string parser
raises at the position determined before the scan — in the too-short case
both strict and lenient raise at the offset just past the opening quote,
and in the terminator-mismatch case the lenient outcome equals the strict
outcome, error kind and offset included. -/
theorem c9_offset_progress :
    (∀ (lenient : Bool) (b : List Nat) (fuel : Nat) (i : Int) (ws : List Warn)
        (v : Value) (i' : Int) (ws' : List Warn),
      parse_value lenient b fuel i ws = .ok (v, i', ws') →
      i' ≤ (b.length : Int) ∧ (noMinus b → i < i')) ∧
    (∀ (b : List Nat) (i : Int) (ws : List Warn) (sl : List Nat)
        (i1 strlen : Int),
      read_until b i 58 = .ok (sl, i1) →
      pyIntParse sl = some strlen →
      pySlice b i1 (i1 + 1) = [34] →
      lenient_scan_close b (i1 + 1) = none →
      ((b.length : Int) - (i1 + 1) < strlen →
        parse_string true b i ws = .error ⟨.noViableClosing, i1 + 1⟩ ∧
        parse_string false b i ws = .error ⟨.stringTooShort, i1 + 1⟩) ∧
      (¬ ((b.length : Int) - (i1 + 1) < strlen) →
        ¬ (pySlice b (i1 + 1 + strlen) (i1 + 1 + strlen + 1) = [34] ∧
          pySlice b (ws_skip b (i1 + 1 + strlen + 1))
            (ws_skip b (i1 + 1 + strlen + 1) + 1) = [59]) →
        parse_string true b i ws = parse_string false b i ws)) := by
  refine ⟨?_, ?_⟩
  · intro lenient b fuel i ws v i' ws' h
    exact parse_value_ok_bounds h
  · intro b i ws sl i1 strlen h1 h2 h3 hscan
    constructor
    · intro hshort
      have h := @parse_string_short_eq b i ws sl i1 strlen h1 h2 h3 hshort
      refine ⟨?_, h.1⟩
      rw [h.2, hscan]
    · intro hshort hterm
      have h := @parse_string_mismatch_eq b i ws sl i1 strlen h1 h2 h3 hshort
        hterm
      rw [h.2, hscan, h.1]

/-- C9 witness: parsing `N;` at offset 0 returns offset 2, within bounds and
strictly past the entry offset; and on `s:10:"short` the failed scan leaves
both decoding modes raising at offset 6, just past the opening quote. -/
theorem c9_offset_progress_witness :
    parse_value false (strBytes "N;") 1 0 [] = PRes.ok (.null, 2, []) ∧
    ((2 : Int) ≤ ((strBytes "N;").length : Int) ∧
      (noMinus (strBytes "N;") → (0 : Int) < 2)) ∧
    parse_string true (strBytes "s:10:\"short") 2 [] =
      .error ⟨.noViableClosing, 6⟩ ∧
    parse_string false (strBytes "s:10:\"short") 2 [] =
      .error ⟨.stringTooShort, 6⟩ := by
  have hb := c9_offset_progress.1 false (strBytes "N;") 1 0 [] Value.null 2 []
    rfl
  have hs := (c9_offset_progress.2 (strBytes "s:10:\"short") 2 []
    (strBytes "10") 5 10 rfl rfl rfl (by decide)).1 (by decide)
  exact ⟨rfl, hb, hs.1, hs.2⟩

/-- C9 counterexample: inside `a:2:{i:0;s:1:"q";i:1;s:-13:";}` the value
parse at offset 21 (`s:-13:...`) succeeds and returns offset 17 — the cursor
moves backward, refuting the unconditional strict increase. -/
theorem c9_counterexample :
    parse_value false (strBytes "a:2:\x7bi:0;s:1:\"q\";i:1;s:-13:\";\x7d") 1
      21 [] = PRes.ok (.str [], 17, []) ∧ ¬ ((21 : Int) < 17) :=
  ⟨rfl, by decide⟩

/-- C10: a zero-count container `a:0:{}` decodes to the empty Map, never the
empty List: the List reclassification requires at least one key, so the
zero-key case falls to the Map branch, for any key and value parsers (hence
at every depth and leniency). -/
theorem c10_empty_container
    (pk : Int → List Warn → Except PErr (PKey × Int × List Warn))
    (pv : Int → List Warn → PRes (Value × Int × List Warn))
    (b : List Nat) (i : Int) (ws : List Warn) (countBytes : List Nat) (i1 : Int)
    (h1 : read_until b i 58 = .ok (countBytes, i1))
    (h2 : pyIntParse countBytes = some 0)
    (h3 : pySlice b i1 (i1 + 1) = [123])
    (h4 : pySlice b (i1 + 1) (i1 + 1 + 1) = [125]) :
    parse_array_tail pk pv b i ws = .ok (.map [], i1 + 1 + 1, ws) := by
  unfold parse_array_tail
  rw [h1]
  dsimp only
  rw [h2]
  dsimp only
  rw [if_neg (fun hne => hne h3)]
  have hit : parse_items pk pv (0 : Int).toNat (i1 + 1) ws [] =
      .ok ([], i1 + 1, ws) := rfl
  rw [hit]
  dsimp only
  rw [if_neg (fun hne => hne h4)]
  rw [if_neg (fun hc => hc.1 rfl)]
  rfl

/-- C10 witness: `a:0:{}` decodes to the empty Map at resume offset 6. -/
theorem c10_empty_container_witness :
    parse_array_tail (parse_key false (strBytes "a:0:\x7b\x7d"))
      (parse_value false (strBytes "a:0:\x7b\x7d") 0) (strBytes "a:0:\x7b\x7d")
      2 [] = .ok (.map [], 6, []) := by
  have h := c10_empty_container (parse_key false (strBytes "a:0:\x7b\x7d"))
    (parse_value false (strBytes "a:0:\x7b\x7d") 0) (strBytes "a:0:\x7b\x7d")
    2 [] (strBytes "0") 4 rfl rfl rfl rfl
  exact h
